import Mathlib

/-!
Verification model of the conversion routing engine of this repository
(the TypeScript part of src/main.js, together with the handler modules in
src/unnamed): the format/handler data model, the attempt executor with its
forward prefix cache (`attemptConvertPath`), the bounded BFS path search
(`buildConvertPath`), the option pool (`buildOptionList`), the persistent
path store, and the convert-button flow (`convertClick`).

Handler behaviour (`init` / `doConvert`) is modelled as explicit stateful
functions.  JS object identity (the `===` comparisons the router performs
on format objects, node objects and handler objects) is modelled with
numeric identity tags: `fid` for format objects, `nid` for node objects,
`hid` for handler objects; a model instantiation gives distinct objects
distinct tags.  A ghost event log records handler init calls, handler
convert calls (with the input-format lookup result) and every entry into
the executor, so that theorems can speak about which handlers were invoked
and how many hops each executor call ran.
-/

namespace Convert

/-- One working file, `{name, bytes}`. -/
structure FileData where
  name : String
  bytes : List Nat
deriving Repr, DecidableEq

/-- A declared format capability of one handler (`FileFormat` in the
source).  `fid` models JS object identity of the format record; `isFrom`
and `isTo` are the `from` and `to` flags (`from` is a reserved word in
Lean). -/
structure Format where
  fid : Nat
  name : String
  format : String
  extension : String
  mime : Option String
  isFrom : Bool
  isTo : Bool
deriving Repr, DecidableEq

/-- A `(handler, format)` node (`ConvertPathNode` in the source).  `nid`
models JS object identity of the node object: `allOptions` entries, the
`conversionsFromAnyInput` entries and the fresh `{ format, handler }`
objects created during queue expansion are pairwise distinct objects. -/
structure Node where
  nid : Nat
  format : Format
  handler : Nat
deriving Repr, DecidableEq

/-- Ghost log events: handler `init` calls, handler `doConvert` calls
(recording the result of the input-format lookup that was passed as the
`from` argument), and entries into `attemptConvertPath`. -/
inductive Ev where
  | initEv (hid : Nat) (ok : Bool)
  | convEv (hid : Nat) (fromFid : Option Nat) (toFid : Nat) (ok : Bool)
  | attemptStart (path : List Node)
deriving Repr, DecidableEq

/-- Mutable per-handler runtime state: the `ready` flag, the live
`supportedFormats` array (`none` = the field is undefined), and ghost
counters of `init` and `doConvert` calls made so far. -/
structure HState where
  ready : Bool
  supportedFormats : Option (List Format)
  initCount : Nat
  convertCount : Nat
deriving Repr, DecidableEq

/-- Static behaviour of one handler backend.  `initRun n cur` is the
outcome of the `n`-th `init()` call when the live format list is `cur`
(`none` = init throws; otherwise the new live format list, which for the
ImageMagick-style handler of src/unnamed/part_000 appends to the current
list).  `convertRun n files fromFmt toFmt` is the outcome of the `n`-th
`doConvert` call on this handler (`none` = throw).  `initSetsReady`
records whether a successful `init` sets `ready`; the handlers in
src/unnamed never set `ready` at all. -/
structure HandlerBeh where
  hid : Nat
  name : String
  supportAnyInput : Bool
  formats0 : Option (List Format)
  initSetsReady : Bool
  initRun : Nat → Option (List Format) → Option (Option (List Format))
  convertRun : Nat → List FileData → Option Format → Format → Option (List FileData)

/-- The fixed system: the handler list, the UI `simpleMode` flag, and the
wall clock as read at the top of each BFS iteration (`Date.now()`, indexed
by the iteration counter). -/
structure Sys where
  handlers : List HandlerBeh
  simpleMode : Bool
  clock : Nat → Nat

/-- Reference lookup of a handler object by its identity. -/
def Sys.findH (sys : Sys) (hid : Nat) : Option HandlerBeh :=
  sys.handlers.find? (fun h => h.hid == hid)

/-- `window.supportedFormatCache` as an association list keyed by handler
name. -/
abbrev FormatCache := List (String × List Format)

def cacheGet (fc : FormatCache) (name : String) : Option (List Format) :=
  (fc.find? (fun p => p.1 == name)).map (fun p => p.2)

def cacheSet (fc : FormatCache) (name : String) (fmts : List Format) : FormatCache :=
  if (fc.find? (fun p => p.1 == name)).isSome then
    fc.map (fun p => if p.1 == name then (name, fmts) else p)
  else fc ++ [(name, fmts)]

/-- The mutable global state threaded through the router: per-handler
states, the supported-format cache, the executor's prefix cache
(`convertPathCache`), the allocator for fresh node identities, and the
ghost event log. -/
structure St where
  hstates : List (Nat × HState)
  supportedFormatCache : FormatCache
  convertPathCache : List (List FileData × Node)
  nextNid : Nat
  log : List Ev
deriving Repr, DecidableEq

def hstGet (st : St) (hid : Nat) : HState :=
  ((st.hstates.find? (fun p => p.1 == hid)).map (fun p => p.2)).getD ⟨false, none, 0, 0⟩

def hstSet (st : St) (hid : Nat) (hs : HState) : St :=
  { st with hstates := st.hstates.map (fun p => if p.1 == hid then (p.1, hs) else p) }

def logEv (st : St) (e : Ev) : St := { st with log := st.log ++ [e] }

/-- One `handler.init()` call: consult `initRun` at the current init count,
update the live format list and — for handlers that do set it — the
`ready` flag.  Returns `false` when init threw. -/
def runInit (h : HandlerBeh) (st : St) : St × Bool :=
  let hs := hstGet st h.hid
  match h.initRun hs.initCount hs.supportedFormats with
  | some fmts =>
      let hs' : HState :=
        { hs with
          supportedFormats := fmts
          ready := hs.ready || h.initSetsReady
          initCount := hs.initCount + 1 }
      (logEv (hstSet st h.hid hs') (.initEv h.hid true), true)
  | none =>
      (logEv (hstSet st h.hid { hs with initCount := hs.initCount + 1 })
        (.initEv h.hid false), false)

/-- The `if (!handler.ready)` block of the executor's hop: read the format
cache, init the handler when it is not ready (a throwing init aborts the
hop), and write a defined live format list back into the cache. -/
def initPhase (h : HandlerBeh) (st : St) : St × Option (List Format) × Bool :=
  let supportedFormats0 := cacheGet st.supportedFormatCache h.name
  if (hstGet st h.hid).ready then (st, supportedFormats0, true)
  else
    match runInit h st with
    | (st', false) => (st', supportedFormats0, false)
    | (st', true) =>
        match (hstGet st' h.hid).supportedFormats with
        | some fmts =>
            ({ st' with supportedFormatCache :=
                cacheSet st'.supportedFormatCache h.name fmts }, some fmts, true)
        | none => (st', supportedFormats0, true)

def hopStep (sys : Sys) (prev next : Node) (files : List FileData) (st : St) :
    St × Option (List FileData) :=
  match sys.findH next.handler with
  | none => (st, none)
  | some h =>
    match initPhase h st with
    | (st1, _, false) => (st1, none)
    | (st1, none, true) => (st1, none)
    | (st1, some fmts, true) =>
      let inputFormat := fmts.find? (fun c => c.mime == prev.format.mime && c.isFrom)
      let fromFid := inputFormat.map (fun f => f.fid)
      let hs := hstGet st1 h.hid
      let res := h.convertRun hs.convertCount files inputFormat next.format
      let stc := hstSet st1 h.hid { hs with convertCount := hs.convertCount + 1 }
      match res with
      | none => (logEv stc (.convEv h.hid fromFid next.format.fid false), none)
      | some fs =>
        if fs.any (fun c => c.bytes.length == 0) then
          (logEv stc (.convEv h.hid fromFid next.format.fid false), none)
        else
          let st2 := logEv stc (.convEv h.hid fromFid next.format.fid true)
          ({ st2 with convertPathCache := st2.convertPathCache ++ [(fs, next)] }, some fs)

/-- The per-hop loop of `attemptConvertPath`, over the remaining
`(path[i], path[i+1])` pairs: init the hop's handler if it is not ready,
look up the `from`-enabled entry of its supported formats with the
previous node's MIME (the lookup may fail, in which case `undefined` is
forwarded to `doConvert` — this mirrors the non-null assertion in the
source), run `doConvert`, fail on a throw or on an empty output file, and
append the successful hop to the prefix cache. -/
def attemptStep (sys : Sys) : List (Node × Node) → List FileData → St →
    St × Option (List FileData)
  | [], files, st => (st, some files)
  | (prev, next) :: rest, files, st =>
    match hopStep sys prev next files st with
    | (st', none) => (st', none)
    | (st', some fs) => attemptStep sys rest fs st'

/-- `attemptConvertPath(files, path)`: seed the working files from the last
prefix-cache entry and the start index from the cache length, then run the
remaining hops.  On success the candidate path is returned verbatim with
the final working files.  A ghost `attemptStart` event records the call. -/
def attemptConvertPath (sys : Sys) (files : List FileData) (path : List Node) (st : St) :
    St × Option (List FileData × List Node) :=
  let st0 := logEv st (.attemptStart path)
  let files1 := match st0.convertPathCache.getLast? with
    | some c => c.1
    | none => files
  let start := match st0.convertPathCache.getLast? with
    | some _ => st0.convertPathCache.length
    | none => 0
  match attemptStep sys ((path.zip path.tail).drop start) files1 st0 with
  | (st', some fs) => (st', some (fs, path))
  | (st', none) => (st', none)

/-- The prefix-cache realignment loop at the top of each BFS iteration:
compare `path[i]` with `convertPathCache[i]?.node` for i = 1, 2, … and
truncate the cache to length i−1 at the first mismatch (JS sets the array
`length`; the truncation index never exceeds the current length). -/
def realignGo (path : List Node) (cache : List (List FileData × Node)) :
    Nat → Nat → List (List FileData × Node)
  | 0, _ => cache
  | fuel + 1, i =>
    if i < path.length then
      if (cache.get? i).map (fun c => c.2) == path.get? i then realignGo path cache fuel (i + 1)
      else cache.take (i - 1)
    else cache

def realign (path : List Node) (cache : List (List FileData × Node)) :
    List (List FileData × Node) :=
  realignGo path cache path.length 1

/-- The search result: `success` carries `{files, path}` (also used for the
deadline partial result, exactly as in the source), `timeout` is the
distinct `TIMEOUT_RESULT` sentinel, `noRoute` is the `null` returned on a
drained queue. -/
inductive BuildResult where
  | success (files : List FileData) (path : List Node)
  | timeout
  | noRoute
deriving Repr, DecidableEq

/-- `deadlineMs && Date.now() > deadlineMs` at the top of a BFS iteration
(`some 0` is falsy in JS, like `undefined`). -/
def timeoutHit (sys : Sys) (deadlineMs : Option Nat) (tick : Nat) : Bool :=
  match deadlineMs with
  | some d => d != 0 && sys.clock tick > d
  | none => false

/-- The simple-mode target-close loop: try each candidate appended to the
dequeued path, returning on the first success; after a failed attempt,
remember the candidate path as `bestPartialPath` if the prefix cache grew
beyond the previous best (the source tracks this value but never reads
it). -/
def tryCandidatesSimple (sys : Sys) (files : List FileData) (path : List Node) :
    List Node → Option (List Node) → St →
    St × Option (List FileData × List Node) × Option (List Node)
  | [], best, st => (st, none, best)
  | c :: rest, best, st =>
    match attemptConvertPath sys files (path ++ [c]) st with
    | (st', some r) => (st', some r, best)
    | (st', none) =>
        let best' :=
          if st'.convertPathCache.length > ((best.map (fun p => p.length)).getD 0) then
            some (path ++ [c])
          else best
        tryCandidatesSimple sys files path rest best' st'

/-- The any-input fallback loop: try each `conversionsFromAnyInput` entry
with the target MIME appended to the dequeued path. -/
def tryAnyList (sys : Sys) (files : List FileData) (path : List Node) :
    List Node → St → St × Option (List FileData × List Node)
  | [], st => (st, none)
  | c :: rest, st =>
    match attemptConvertPath sys files (path ++ [c]) st with
    | (st', some r) => (st', some r)
    | (st', none) => tryAnyList sys files path rest st'

/-- Queue expansion over one handler's cached format list: skip formats
without `to` or without a MIME, skip formats already present in the path
(object identity), and append a fresh `{ format, handler }` node (fresh
`nid`) to the path. -/
def expandFormats (path : List Node) (hid : Nat) :
    List Format → Nat → List (List Node) × Nat
  | [], n => ([], n)
  | f :: fs, n =>
    if f.isTo && f.mime.isSome && !(path.any (fun c => c.format == f)) then
      let (ps, n') := expandFormats path hid fs (n + 1)
      ((path ++ [⟨n, f, hid⟩]) :: ps, n')
    else expandFormats path hid fs n

/-- Queue expansion over all valid handlers, reading each handler's entry
of the supported-format cache. -/
def expandAll (fc : FormatCache) (path : List Node) :
    List HandlerBeh → Nat → List (List Node) × Nat
  | [], n => ([], n)
  | h :: hs, n =>
    match cacheGet fc h.name with
    | none => expandAll fc path hs n
    | some fmts =>
        let (ps, n') := expandFormats path h.hid fmts n
        let (ps2, n'') := expandAll fc path hs n'
        (ps ++ ps2, n'')

/-- Does this handler's cached format list contain a `from`-enabled entry
with the given MIME?  This is the `validHandlers` filter predicate. -/
def handlerReadsMime (fc : FormatCache) (h : HandlerBeh) (m : Option String) : Bool :=
  match cacheGet fc h.name with
  | some fmts => fmts.any (fun f => f.mime == m && f.isFrom)
  | none => false

/-- The body of `buildConvertPath`'s `while (queue.length > 0)` loop,
with explicit fuel.  Per iteration: deadline check (returning the prefix
cache content as a partial success, or the timeout sentinel), dequeue,
length bound, prefix-cache realignment, target-close phase (simple or
advanced mode), one-shot any-input fallback, queue expansion. -/
def buildLoop (sys : Sys) (files : List FileData) (target : Node)
    (allOptions anyInputs : List Node) (deadlineMs : Option Nat) :
    Nat → List (List Node) → Bool → Option (List Node) → Nat → St →
    St × Option BuildResult
  | 0, _, _, _, _, st => (st, none)
  | fuel + 1, queue, isNested, best, tick, st =>
    match queue with
    | [] => (st, some .noRoute)
    | path :: rest =>
      if timeoutHit sys deadlineMs tick then
        match st.convertPathCache.getLast? with
        | some last => (st, some (.success last.1 (st.convertPathCache.map (fun c => c.2))))
        | none => (st, some .timeout)
      else if path.length > 5 then
        buildLoop sys files target allOptions anyInputs deadlineMs fuel rest
          isNested best (tick + 1) st
      else
        let st1 := { st with convertPathCache := realign path st.convertPathCache }
        match path.getLast? with
        | none =>
            buildLoop sys files target allOptions anyInputs deadlineMs fuel rest
              isNested best (tick + 1) st1
        | some previous =>
          let validHandlers := sys.handlers.filter
            (fun h => handlerReadsMime st1.supportedFormatCache h previous.format.mime)
          let validHids := validHandlers.map (fun h => h.hid)
          let closeStep : St × Option (List FileData × List Node) × Option (List Node) :=
            if sys.simpleMode then
              let candidates := allOptions.filter (fun o =>
                validHids.contains o.handler && o.format.mime == target.format.mime &&
                o.format.isTo)
              tryCandidatesSimple sys files path candidates best st1
            else if validHids.contains target.handler then
              match attemptConvertPath sys files (path ++ [target]) st1 with
              | (st2, r) => (st2, r, best)
            else (st1, none, best)
          match closeStep with
          | (st2, some r, _) => (st2, some (.success r.1 r.2))
          | (st2, none, best2) =>
            let anyStep : St × Option (List FileData × List Node) × Bool :=
              if isNested then (st2, none, true)
              else
                let anyConversions :=
                  anyInputs.filter (fun c => c.format.mime == target.format.mime)
                match tryAnyList sys files path anyConversions st2 with
                | (st3, r) => (st3, r, true)
            match anyStep with
            | (st3, some r, _) => (st3, some (.success r.1 r.2))
            | (st3, none, isNested2) =>
              let expansion := expandAll st3.supportedFormatCache path validHandlers st3.nextNid
              buildLoop sys files target allOptions anyInputs deadlineMs fuel
                (rest ++ expansion.1) isNested2 best2 (tick + 1)
                { st3 with nextNid := expansion.2 }

/-- `buildConvertPath(files, target, queue, onPathAttempt, deadlineMs)`:
clears the prefix cache and runs the BFS loop with `isNestedConversion`
and `bestPartialPath` initialised.  Progress callbacks are UI-only and not
modelled.  `none` means the fuel ran out before the loop returned. -/
def buildConvertPath (sys : Sys) (files : List FileData) (target : Node)
    (allOptions anyInputs : List Node) (deadlineMs : Option Nat)
    (queue0 : List (List Node)) (fuel : Nat) (st : St) : St × Option BuildResult :=
  buildLoop sys files target allOptions anyInputs deadlineMs fuel queue0 false none 0
    { st with convertPathCache := [] }

/-- Node objects for a list of formats of one handler, with sequential
fresh identities. -/
def nodesFrom (hid : Nat) : List Format → Nat → List Node × Nat
  | [], n => ([], n)
  | f :: fs, n =>
      let (ns, n') := nodesFrom hid fs (n + 1)
      (⟨n, f, hid⟩ :: ns, n')

/-- `conversionsFromAnyInput`, computed once at module load from the
import-time `supportedFormats` of each handler (for handlers that fill
their format array in `init`, the array is still empty at this point):
every `to`-enabled format of every `supportAnyInput` handler whose format
array is defined. -/
def conversionsFromAnyInput (handlers : List HandlerBeh) : Nat → List Node × Nat
  | n =>
    match handlers with
    | [] => ([], n)
    | h :: hs =>
      if h.supportAnyInput && h.formats0.isSome then
        let (ns, n') := nodesFrom h.hid ((h.formats0.getD []).filter (fun f => f.isTo)) n
        let (ns2, n'') := conversionsFromAnyInput hs n'
        (ns ++ ns2, n'')
      else conversionsFromAnyInput hs n

/-- The option-emitting inner loop of `buildOptionList`: one option per
format whose `mime` is set (the `to` check below it only gates UI button
creation, which is not modelled). -/
def poolNodes (hid : Nat) : List Format → Nat → List Node × Nat
  | [], n => ([], n)
  | f :: fs, n =>
    if f.mime.isSome then
      let (ns, n') := poolNodes hid fs (n + 1)
      (⟨n, f, hid⟩ :: ns, n')
    else poolNodes hid fs n

/-- `buildOptionList`: for each handler, init it on a format-cache miss
(skipping the handler when init throws), write the live format list back
into the cache, then emit one option per cached format with a MIME.  The
`n` argument allocates `allOptions` node identities. -/
def buildOptionList (sys : Sys) : List HandlerBeh → Nat → St → St × List Node
  | [], _, st => (st, [])
  | h :: hs, n, st =>
    let avail : St × Bool :=
      if (cacheGet st.supportedFormatCache h.name).isSome then (st, true)
      else
        match runInit h st with
        | (st', false) => (st', false)
        | (st', true) =>
            match (hstGet st' h.hid).supportedFormats with
            | some fmts =>
                ({ st' with supportedFormatCache :=
                    cacheSet st'.supportedFormatCache h.name fmts }, true)
            | none => (st', true)
    match avail with
    | (st1, false) => buildOptionList sys hs n st1
    | (st1, true) =>
      match cacheGet st1.supportedFormatCache h.name with
      | none => buildOptionList sys hs n st1
      | some fmts =>
          let (ns, n') := poolNodes h.hid fmts n
          let (st2, ns2) := buildOptionList sys hs n' st1
          (st2, ns ++ ns2)

/-- A serialised path-store node: `{handlerName, formatMime, formatFormat}`. -/
structure StoredNode where
  handlerName : String
  formatMime : Option String
  formatFormat : String
deriving Repr, DecidableEq

/-- The persistent path store (localStorage JSON object). -/
abbrev PathStore := List (String × List StoredNode)

def storeGet (store : PathStore) (key : String) : Option (List StoredNode) :=
  (store.find? (fun p => p.1 == key)).map (fun p => p.2)

def storeSet (store : PathStore) (key : String) (v : List StoredNode) : PathStore :=
  if (store.find? (fun p => p.1 == key)).isSome then
    store.map (fun p => if p.1 == key then (key, v) else p)
  else store ++ [(key, v)]

def pathStoreKey (inputMime outputMime : Option String)
    (outputHandlerName : Option String) : String :=
  let base := inputMime.getD "" ++ "->" ++ outputMime.getD ""
  match outputHandlerName with
  | some hname => base ++ ":" ++ hname
  | none => base

def handlerName (sys : Sys) (hid : Nat) : String :=
  ((sys.findH hid).map (fun h => h.name)).getD ""

/-- `storePath`: serialise and overwrite. -/
def storePath (sys : Sys) (store : PathStore) (key : String) (path : List Node) : PathStore :=
  storeSet store key (path.map (fun nd =>
    ⟨handlerName sys nd.handler, nd.format.mime, nd.format.format⟩))

/-- `recallPath`: reconstruct a live chain by matching each stored node
against the current `allOptions` on handler name, format MIME and format
code; `none` if the entry is absent, empty, or any node is unresolvable. -/
def recallPath (sys : Sys) (allOptions : List Node) (store : PathStore)
    (key : String) : Option (List Node) :=
  match storeGet store key with
  | none => none
  | some stored =>
    if stored.isEmpty then none
    else stored.mapM (fun s => allOptions.find? (fun o =>
      handlerName sys o.handler == s.handlerName && o.format.mime == s.formatMime &&
      o.format.format == s.formatFormat))

/-- `evictPath`: delete the entry. -/
def evictPath (store : PathStore) (key : String) : PathStore :=
  store.filter (fun p => p.1 != key)

/-- The user-visible outcome of one convert-button click. -/
inductive ClickOutcome where
  | converted
  | noRoute
  | timeoutAlert
  | partialSaved
deriving Repr, DecidableEq

/-- Everything observable after one click: the files handed to the
download surface as `(name, bytes, mime)`, the outcome, the final router
state (including the ghost log) and the final path store. -/
structure ClickResult where
  downloads : List (String × List Nat × Option String)
  outcome : ClickOutcome
  st : St
  store : PathStore
deriving Repr, DecidableEq

/-- The convert-button click handler (router part; popups and timers are
UI-only).  Per input file: if the selected input MIME equals the selected
output MIME the bytes are downloaded unchanged and the file is not added
to the working set — but the flow then continues into cache recall and
the BFS search regardless.  A cached path is replayed first (evicting on
failure); otherwise the search runs, a timeout or partial result is
reported, and a confirmed search result is re-executed from a cleared
prefix cache before its files are downloaded and its path stored.  `none`
means the search fuel ran out. -/
def convertClick (sys : Sys) (selectedFiles : List FileData)
    (inputOption outputOption : Node) (allOptions anyInputs : List Node)
    (deadline : Option Nat) (fuel : Nat) (store0 : PathStore) (st0 : St) :
    Option ClickResult :=
  let inputFormat := inputOption.format
  let outputFormat := outputOption.format
  let cacheKey := pathStoreKey inputFormat.mime outputFormat.mime
    (if sys.simpleMode then none else some (handlerName sys outputOption.handler))
  let pass := inputFormat.mime == outputFormat.mime
  let downloads0 := if pass then
      selectedFiles.map (fun f => (f.name, f.bytes, inputFormat.mime))
    else []
  let inputFileData := if pass then [] else selectedFiles
  let cachedStep : St × PathStore × Option (List FileData × List Node) :=
    match recallPath sys allOptions store0 cacheKey with
    | some cp =>
        match attemptConvertPath sys inputFileData cp { st0 with convertPathCache := [] } with
        | (st', some out) => (st', store0, some out)
        | (st', none) => (st', evictPath store0 cacheKey, none)
    | none => (st0, store0, none)
  match cachedStep with
  | (st1, store1, some out) =>
      some ⟨downloads0 ++ out.1.map (fun f => (f.name, f.bytes, outputFormat.mime)),
        .converted, st1, store1⟩
  | (st1, store1, none) =>
    match buildConvertPath sys inputFileData outputOption allOptions anyInputs deadline
        [[inputOption]] fuel st1 with
    | (_, none) => none
    | (st2, some .timeout) => some ⟨downloads0, .timeoutAlert, st2, store1⟩
    | (st2, some .noRoute) => some ⟨downloads0, .noRoute, st2, store1⟩
    | (st2, some (.success fs p)) =>
      let lastMime : Option (Option String) := (p.getLast?).map (fun nd => nd.format.mime)
      if !p.isEmpty && lastMime != some outputFormat.mime then
        let store2 := storePath sys store1 cacheKey p
        let pm := lastMime.getD none
        some ⟨downloads0 ++ fs.map (fun f => (f.name, f.bytes, pm)),
          .partialSaved, st2, store2⟩
      else
        match attemptConvertPath sys inputFileData p { st2 with convertPathCache := [] } with
        | (st3, some out) =>
            let store2 := storePath sys store1 cacheKey out.2
            some ⟨downloads0 ++ out.1.map (fun f => (f.name, f.bytes, outputFormat.mime)),
              .converted, st3, store2⟩
        | (st3, none) => some ⟨downloads0, .noRoute, st3, store1⟩

/-! Ghost-log accessors used by the theorems. -/

/-- Number of `doConvert` invocations recorded in a log. -/
def convEvsCount (l : List Ev) : Nat :=
  l.countP (fun e => match e with | .convEv _ _ _ _ => true | _ => false)

/-- The paths of all executor invocations recorded in a log. -/
def attemptPaths (l : List Ev) : List (List Node) :=
  l.filterMap (fun e => match e with | .attemptStart p => some p | _ => none)

/-- Number of convert events before the next executor entry. -/
def convPrefixCount : List Ev → Nat
  | [] => 0
  | .attemptStart _ :: _ => 0
  | .convEv _ _ _ _ :: rest => convPrefixCount rest + 1
  | .initEv _ _ :: rest => convPrefixCount rest

/-- Per-executor-call hop counts: each executor entry in the log paired
with the number of convert invocations it performed. -/
def attemptHopCounts : List Ev → List (List Node × Nat)
  | [] => []
  | .attemptStart p :: rest => (p, convPrefixCount rest) :: attemptHopCounts rest
  | .initEv _ _ :: rest => attemptHopCounts rest
  | .convEv _ _ _ _ :: rest => attemptHopCounts rest

/-- Length of the longest common prefix of two chains (node objects). -/
def commonPrefixLen : List Node → List Node → Nat
  | a :: as, b :: bs => if a == b then commonPrefixLen as bs + 1 else 0
  | _, _ => 0

/-! Concrete model instantiations used by witnesses and counterexamples. -/

/-- A format with MIME `m`, readable and writable, of the single handler of
`sysA`. -/
def fa : Format := ⟨0, "A", "a", "a", some "m", true, true⟩

/-- The single always-succeeding, always-ready handler of `sysA`. -/
def hA : HandlerBeh :=
  ⟨0, "H", false, some [fa], false, fun _ _ => none, fun _ _ _ _ => some [⟨"out", [1]⟩]⟩

def sysA : Sys := ⟨[hA], true, fun _ => 0⟩

def stA : St := ⟨[(0, ⟨true, some [fa], 0, 0⟩)], [("H", [fa])], [], 100, []⟩

/-- The `allOptions` entry for `(hA, fa)`; it is both the selected input
option and the selected output option in the identity scenarios. -/
def nodeA : Node := ⟨0, fa, 0⟩

/-- The search of `sysA` from the identity queue. -/
def runA : St × Option BuildResult :=
  buildConvertPath sysA [⟨"f", [9]⟩] nodeA [nodeA] [] none [[nodeA]] 5 stA

/-- The full click flow of `sysA` with input MIME = output MIME. -/
def clickA : Option ClickResult :=
  convertClick sysA [⟨"f", [9]⟩] nodeA nodeA [nodeA] [] none 5 [] stA

/-- `sysB`: two handlers both reading MIME `a` and writing MIME `t`; the
first handler's convert always throws, the second's succeeds.  Used for
the prefix-cache hop-count counterexample. -/
def fb0 : Format := ⟨0, "A", "a", "a", some "a", true, true⟩
def fb1 : Format := ⟨1, "T1", "t1", "t1", some "t", false, true⟩
def fb2 : Format := ⟨2, "A2", "a2", "a2", some "a", true, false⟩
def fb3 : Format := ⟨3, "T2", "t2", "t2", some "t", false, true⟩

def hB1 : HandlerBeh :=
  ⟨0, "H1", false, some [fb0, fb1], false, fun _ _ => none, fun _ _ _ _ => none⟩
def hB2 : HandlerBeh :=
  ⟨1, "H2", false, some [fb2, fb3], false, fun _ _ => none, fun _ _ _ _ => some [⟨"o", [1]⟩]⟩

def sysB : Sys := ⟨[hB1, hB2], true, fun _ => 0⟩

def stB : St :=
  ⟨[(0, ⟨true, some [fb0, fb1], 0, 0⟩), (1, ⟨true, some [fb2, fb3], 0, 0⟩)],
   [("H1", [fb0, fb1]), ("H2", [fb2, fb3])], [], 100, []⟩

def allOptionsB : List Node := [⟨0, fb0, 0⟩, ⟨1, fb1, 0⟩, ⟨2, fb2, 1⟩, ⟨3, fb3, 1⟩]

def runB : St × Option BuildResult :=
  buildConvertPath sysB [⟨"f", [9]⟩] ⟨3, fb3, 1⟩ allOptionsB [] none [[⟨0, fb0, 0⟩]] 5 stB

/-- `sysR`: one ordinary handler for the input MIME and one
`supportAnyInput` renamer that writes the target MIME but declares no
`from` entry for the input MIME.  Used for the any-input adjacency and
lookup counterexamples. -/
def fra : Format := ⟨0, "A", "a", "a", some "a", true, true⟩
def frt : Format := ⟨1, "T", "t", "t", some "t", false, true⟩

def hR0 : HandlerBeh :=
  ⟨0, "H0", false, some [fra], false, fun _ _ => none, fun _ _ _ _ => some [⟨"x", [1]⟩]⟩
def hRen : HandlerBeh :=
  ⟨1, "R", true, some [frt], false, fun _ _ => none, fun _ _ _ _ => some [⟨"r", [1]⟩]⟩

def sysR : Sys := ⟨[hR0, hRen], true, fun _ => 0⟩

def stR : St :=
  ⟨[(0, ⟨true, some [fra], 0, 0⟩), (1, ⟨true, some [frt], 0, 0⟩)],
   [("H0", [fra]), ("R", [frt])], [], 100, []⟩

def allOptionsR : List Node := [⟨0, fra, 0⟩, ⟨1, frt, 1⟩]

/-- The module-load `conversionsFromAnyInput` list of `sysR`. -/
def anyInputsR : List Node := (conversionsFromAnyInput [hR0, hRen] 50).1

def runR : St × Option BuildResult :=
  buildConvertPath sysR [⟨"f", [9]⟩] ⟨1, frt, 1⟩ allOptionsR anyInputsR none
    [[⟨0, fra, 0⟩]] 5 stR

/-- `sysM`: an ImageMagick-style handler — no `ready` flag is ever set and
each `init()` call appends the parsed format list to the live
`supportedFormats` array.  Used for the init-at-most-once claim. -/
def fma : Format := ⟨0, "A", "a", "a", some "a", true, true⟩
def fmaR : Format := ⟨3, "AR", "ar", "ar", some "a", true, false⟩
def fmx : Format := ⟨1, "X", "x", "x", some "x", true, true⟩
def fmy : Format := ⟨2, "Y", "y", "y", some "y", false, true⟩

def hMagick : HandlerBeh :=
  ⟨0, "ImageMagick", false, some [], false,
   fun _ cur => some (some ((cur.getD []) ++ [fmaR, fmx, fmy])),
   fun _ _ _ _ => some [⟨"c", [1]⟩]⟩

def sysM : Sys := ⟨[hMagick], true, fun _ => 0⟩

def stM : St :=
  ⟨[(0, ⟨false, some [], 0, 0⟩)], [("ImageMagick", [fmaR, fmx, fmy])], [], 100, []⟩

/-- Executing the three-node chain a → x → y, both hops via the
ImageMagick-style handler. -/
def runM : St × Option (List FileData × List Node) :=
  attemptConvertPath sysM [⟨"f", [9]⟩] [⟨0, fma, 0⟩, ⟨1, fmx, 0⟩, ⟨2, fmy, 0⟩] stM

/-- `sysS n`: one ready handler converting MIME `a` to MIME `b`; its
convert succeeds on the first `n` invocations (returning bytes that
identify the invocation) and throws afterwards.  `sysS 2` shows the
double execution of a found chain; `sysS 1` shows the re-execution
failing after a successful search. -/
def gs0 : Format := ⟨0, "A", "a", "a", some "a", true, false⟩
def gs1 : Format := ⟨1, "B", "b", "b", some "b", false, true⟩

def hS (n : Nat) : HandlerBeh :=
  ⟨0, "H", false, some [gs0, gs1], false, fun _ _ => none,
   fun k _ _ _ => if k < n then some [⟨"o", [k + 1]⟩] else none⟩

def sysS (n : Nat) : Sys := ⟨[hS n], true, fun _ => 0⟩

def stS : St :=
  ⟨[(0, ⟨true, some [gs0, gs1], 0, 0⟩)], [("H", [gs0, gs1])], [], 100, []⟩

def allOptionsS : List Node := [⟨0, gs0, 0⟩, ⟨1, gs1, 0⟩]

def clickS (n : Nat) : Option ClickResult :=
  convertClick (sysS n) [⟨"f", [9]⟩] ⟨0, gs0, 0⟩ ⟨1, gs1, 0⟩ allOptionsS [] none 5 [] stS

/-- `sysN`: a handler whose cached format list has a format with a MIME
but neither `from` nor `to`, one with no MIME, and an ordinary one.  Used
for the option-pool claim. -/
def pn0 : Format := ⟨0, "N0", "n0", "n0", some "x", false, false⟩
def pn1 : Format := ⟨1, "N1", "n1", "n1", none, true, true⟩
def pn2 : Format := ⟨2, "N2", "n2", "n2", some "y", true, true⟩

def hN : HandlerBeh :=
  ⟨0, "HN", false, some [pn0, pn1, pn2], false, fun _ _ => none, fun _ _ _ _ => none⟩

def sysN : Sys := ⟨[hN], true, fun _ => 0⟩

def stN : St :=
  ⟨[(0, ⟨true, some [pn0, pn1, pn2], 0, 0⟩)], [("HN", [pn0, pn1, pn2])], [], 100, []⟩

def poolN : St × List Node := buildOptionList sysN [hN] 0 stN

/-! Derived predicates used by the theorems. -/

/-- Some handler object with this identity declares, in the format cache,
a `from`-enabled format with the given MIME — the adjacency condition the
chain-construction phases establish. -/
def declaresFrom (sys : Sys) (fc : FormatCache) (m : Option String) (hid : Nat) : Bool :=
  sys.handlers.any (fun h => h.hid == hid && handlerReadsMime fc h m)

/-- Adjacency along a whole chain: each hop's handler declares a
`from`-enabled format with the previous node's MIME. -/
def chainAdj (sys : Sys) (fc : FormatCache) : List Node → Bool
  | a :: b :: rest => declaresFrom sys fc a.format.mime b.handler && chainAdj sys fc (b :: rest)
  | _ => true

/-- The handler with this identity is a `supportAnyInput` handler. -/
def anyInputB (sys : Sys) (hid : Nat) : Bool :=
  sys.handlers.any (fun h => h.hid == hid && h.supportAnyInput)

/-- The chain's final node belongs to a `supportAnyInput` handler. -/
def anyLast (sys : Sys) (p : List Node) : Bool :=
  match p.getLast? with
  | some c => anyInputB sys c.handler
  | none => false

/-- Every handler's runtime state is ready (so the executor never calls
`init` and the format cache is stable). -/
abbrev readyAll (sys : Sys) (st : St) : Prop :=
  ∀ h ∈ sys.handlers, (hstGet st h.hid).ready = true

/-- Handler identities are pairwise distinct (JS objects are distinct). -/
abbrev nodupHids (sys : Sys) : Prop := (sys.handlers.map (fun h => h.hid)).Nodup

/-- One hop is fine if its handler declares the previous MIME, or it is an
any-input handler (the fallback appends those without the adjacency
check). -/
def pairOK (sys : Sys) (fc : FormatCache) (pr : Node × Node) : Bool :=
  declaresFrom sys fc pr.1.format.mime pr.2.handler || anyInputB sys pr.2.handler

/-- A chain handed to the executor is adjacency-correct except possibly
at its final hop, which is then an any-input append. -/
def attemptOKb (sys : Sys) (fc : FormatCache) (p : List Node) : Bool :=
  chainAdj sys fc p.dropLast && (chainAdj sys fc p || anyLast sys p)

/-- Per-event soundness of a ghost log entry: an executor entry carries a
chain that is adjacency-correct except possibly at its final any-input
hop, and a convert call whose input-format lookup failed targets an
any-input handler. -/
def evOKb (sys : Sys) (fc : FormatCache) : Ev → Bool
  | .attemptStart p => attemptOKb sys fc p
  | .convEv hid none _ _ => anyInputB sys hid
  | _ => true

/-- All the formats of a chain are pairwise distinct. -/
abbrev formatsDistinct (p : List Node) : Prop := (p.map (fun nd => nd.format)).Nodup

/-! Basic log lemmas. -/

theorem log_logEv (st : St) (e : Ev) : (logEv st e).log = st.log ++ [e] := rfl

theorem log_hstSet (st : St) (hid : Nat) (hs : HState) : (hstSet st hid hs).log = st.log := rfl

theorem convEvsCount_append (l1 l2 : List Ev) :
    convEvsCount (l1 ++ l2) = convEvsCount l1 + convEvsCount l2 :=
  List.countP_append _ _ _

theorem attemptPaths_append (l1 l2 : List Ev) :
    attemptPaths (l1 ++ l2) = attemptPaths l1 ++ attemptPaths l2 :=
  List.filterMap_append _ _ _

theorem runInit_log (h : HandlerBeh) (st : St) :
    ∃ b, (runInit h st).1.log = st.log ++ [.initEv h.hid b] := by
  simp only [runInit]
  split <;> exact ⟨_, rfl⟩

theorem initPhase_log (h : HandlerBeh) (st : St) :
    ∃ l, (initPhase h st).1.log = st.log ++ l ∧ attemptPaths l = [] ∧ convEvsCount l = 0 := by
  simp only [initPhase]
  split
  · exact ⟨[], by simp, rfl, rfl⟩
  · obtain ⟨b, hb⟩ := runInit_log h st
    rcases hr : runInit h st with ⟨st', ok⟩
    rw [hr] at hb
    simp only at hb
    cases ok <;> simp only
    · exact ⟨[.initEv h.hid b], hb, rfl, rfl⟩
    · split
      · exact ⟨[.initEv h.hid b], hb, rfl, rfl⟩
      · exact ⟨[.initEv h.hid b], hb, rfl, rfl⟩

theorem initPhase_cache_unchanged (h : HandlerBeh) (st : St) :
    (initPhase h st).1.convertPathCache = st.convertPathCache := by
  simp only [initPhase]
  split
  · rfl
  · rcases hr : runInit h st with ⟨st', ok⟩
    have hc : st'.convertPathCache = st.convertPathCache := by
      have := congrArg (fun p => p.1.convertPathCache) hr
      simp only at this
      rw [← this]
      simp only [runInit]
      split <;> rfl
    cases ok <;> simp only
    · exact hc
    · split <;> exact hc

theorem hopStep_log (sys : Sys) (prev next : Node) (files : List FileData) (st : St) :
    ∃ l, (hopStep sys prev next files st).1.log = st.log ++ l ∧ attemptPaths l = [] ∧
      ((hopStep sys prev next files st).2.isSome → convEvsCount l = 1) := by
  simp only [hopStep]
  split
  · exact ⟨[], by simp, rfl, by intro hs; simp at hs⟩
  · rename_i h _
    obtain ⟨l0, hl0, hp0, hc0⟩ := initPhase_log h st
    rcases hIP : initPhase h st with ⟨st1, ofmts, ok⟩
    rw [hIP] at hl0
    simp only at hl0
    cases ok
    · simp only
      exact ⟨l0, hl0, hp0, by intro hs; simp at hs⟩
    · cases ofmts
      · simp only
        exact ⟨l0, hl0, hp0, by intro hs; simp at hs⟩
      · rename_i fmts
        simp only
        split
        · exact ⟨l0 ++ [.convEv h.hid ((fmts.find? (fun c => c.mime == prev.format.mime &&
              c.isFrom)).map (fun f => f.fid)) next.format.fid false],
            by simp [logEv, hstSet, hl0],
            by rw [attemptPaths_append, hp0]; rfl,
            by intro hs; simp at hs⟩
        · split
          · exact ⟨l0 ++ [.convEv h.hid ((fmts.find? (fun c => c.mime == prev.format.mime &&
                c.isFrom)).map (fun f => f.fid)) next.format.fid false],
              by simp [logEv, hstSet, hl0],
              by rw [attemptPaths_append, hp0]; rfl,
              by intro hs; simp at hs⟩
          · exact ⟨l0 ++ [.convEv h.hid ((fmts.find? (fun c => c.mime == prev.format.mime &&
                c.isFrom)).map (fun f => f.fid)) next.format.fid true],
              by simp [logEv, hstSet, hl0],
              by rw [attemptPaths_append, hp0]; rfl,
              by intro _; rw [convEvsCount_append, hc0]; rfl⟩

theorem attemptStep_log (sys : Sys) (pairs : List (Node × Node)) :
    ∀ files st, ∃ l, (attemptStep sys pairs files st).1.log = st.log ++ l ∧
      attemptPaths l = [] ∧
      ((attemptStep sys pairs files st).2.isSome → convEvsCount l = pairs.length) := by
  induction pairs with
  | nil =>
      intro files st
      exact ⟨[], by simp [attemptStep], rfl, by intro _; rfl⟩
  | cons pr rest ih =>
      intro files st
      obtain ⟨prev, next⟩ := pr
      simp only [attemptStep]
      obtain ⟨l0, hl0, hp0, hc0⟩ := hopStep_log sys prev next files st
      rcases hH : hopStep sys prev next files st with ⟨st', r⟩
      rw [hH] at hl0 hc0
      cases r
      · simp only
        exact ⟨l0, hl0, hp0, by intro hs; simp at hs⟩
      · rename_i fs
        simp only
        obtain ⟨l1, hl1, hp1, hc1⟩ := ih fs st'
        refine ⟨l0 ++ l1, ?_, ?_, ?_⟩
        · rw [hl1, hl0, List.append_assoc]
        · simp [attemptPaths_append, hp0, hp1]
        · intro hs
          simp [convEvsCount_append, hc1 hs, hc0 rfl, Nat.add_comm]

theorem attemptConvertPath_log (sys : Sys) (files : List FileData) (p : List Node) (st : St) :
    ∃ l, (attemptConvertPath sys files p st).1.log = st.log ++ [.attemptStart p] ++ l ∧
      attemptPaths l = [] ∧
      ((attemptConvertPath sys files p st).2.isSome →
        convEvsCount l = p.length - 1 - st.convertPathCache.length) := by
  have hzip : ∀ k, ((p.zip p.tail).drop k).length = p.length - 1 - k := by
    intro k
    rw [List.length_drop, List.length_zip, List.length_tail,
      Nat.min_eq_right (Nat.sub_le _ _)]
  have hlogc : (logEv st (.attemptStart p)).convertPathCache = st.convertPathCache := rfl
  simp only [attemptConvertPath, hlogc]
  rcases hlast : st.convertPathCache.getLast? with _ | c
  · have hcache : st.convertPathCache = [] := List.getLast?_eq_none_iff.mp hlast
    obtain ⟨l, hl, hp, hc⟩ := attemptStep_log sys ((p.zip p.tail).drop 0) files
      (logEv st (.attemptStart p))
    rcases hA : attemptStep sys ((p.zip p.tail).drop 0) files
      (logEv st (.attemptStart p)) with ⟨st1, r⟩
    rw [hA] at hl hc
    simp only at hl hc
    refine ⟨l, ?_, hp, ?_⟩
    · cases r <;> simpa [logEv] using hl
    · cases r
      · intro hs; simp at hs
      · intro _
        rw [hc rfl, hzip, hcache]
        simp
  · obtain ⟨l, hl, hp, hc⟩ := attemptStep_log sys
      ((p.zip p.tail).drop st.convertPathCache.length) c.1
      (logEv st (.attemptStart p))
    rcases hA : attemptStep sys ((p.zip p.tail).drop st.convertPathCache.length) c.1
      (logEv st (.attemptStart p)) with ⟨st1, r⟩
    rw [hA] at hl hc
    simp only at hl hc
    refine ⟨l, ?_, hp, ?_⟩
    · cases r <;> simpa [logEv] using hl
    · cases r
      · intro hs; simp at hs
      · intro _
        rw [hc rfl, hzip]

/-- On success the executor returns its path argument verbatim. -/
theorem attemptConvertPath_path (sys : Sys) (files : List FileData) (p : List Node)
    (st : St) (r : List FileData × List Node)
    (h : (attemptConvertPath sys files p st).2 = some r) : r.2 = p := by
  simp only [attemptConvertPath] at h
  rcases hA : attemptStep sys ((p.zip p.tail).drop
      (match (logEv st (.attemptStart p)).convertPathCache.getLast? with
        | some _ => (logEv st (.attemptStart p)).convertPathCache.length
        | none => 0))
      (match (logEv st (.attemptStart p)).convertPathCache.getLast? with
        | some c => c.1
        | none => files)
      (logEv st (.attemptStart p)) with ⟨st1, q⟩
  rw [hA] at h
  cases q
  · simp at h
  · simp only at h
    cases h
    rfl

/-- C1, amended: a successful `attemptConvertPath` call executes exactly
`len − 1 − c` convert hops, where `c` is the length of the executor's
prefix cache at the start of the call (the cache seeds both the start
index and the working files); `c` is the number of retained previously
executed hops, which need not equal the shared-prefix length of the two
chains. -/
theorem attemptConvertPath_hops (sys : Sys) (files : List FileData) (p : List Node)
    (st : St) (hs : (attemptConvertPath sys files p st).2.isSome = true) :
    convEvsCount (attemptConvertPath sys files p st).1.log =
      convEvsCount st.log + (p.length - 1 - st.convertPathCache.length) := by
  obtain ⟨l, hl, _, hc⟩ := attemptConvertPath_log sys files p st
  rw [hl, convEvsCount_append, convEvsCount_append, hc hs]
  rfl

/-- Witness for `attemptConvertPath_hops` at a concrete call. -/
theorem attemptConvertPath_hops_witness :
    convEvsCount (attemptConvertPath sysA [⟨"f", [9]⟩] [nodeA, nodeA] stA).1.log =
      convEvsCount stA.log + ([nodeA, nodeA].length - 1 - stA.convertPathCache.length) :=
  attemptConvertPath_hops sysA [⟨"f", [9]⟩] [nodeA, nodeA] stA (by decide)

/-- C1, counterexample: in the `sysB` search, the first two (consecutive)
executor calls try chains that share a prefix of length 1; the second
chain has 2 nodes, so the claim predicts `2 − 1 − 1 = 0` executed hops,
but the second call executes 1 convert hop (the first call failed at the
shared hop, so nothing was cached). -/
theorem C1_counterexample :
    attemptHopCounts runB.1.log =
      [([⟨0, fb0, 0⟩, ⟨1, fb1, 0⟩], 1), ([⟨0, fb0, 0⟩, ⟨3, fb3, 1⟩], 1)] ∧
    commonPrefixLen [⟨0, fb0, 0⟩, ⟨1, fb1, 0⟩] [⟨0, fb0, 0⟩, ⟨3, fb3, 1⟩] = 1 ∧
    ([⟨0, fb0, 0⟩, ⟨3, fb3, 1⟩] : List Node).length - 1 - 1 = 0 ∧ (1 : Nat) ≠ 0 := by
  refine ⟨by decide, by decide, by decide, by decide⟩

/-- C2, counterexample: the `sysA` search succeeds with the chain
`[nodeA, nodeA]`, in which the same `Format` value appears twice — the
close phase appends the final candidate without the cycle check that
guards queue expansion. -/
theorem C2_counterexample :
    runA.2 = some (.success [⟨"out", [1]⟩] [nodeA, nodeA]) ∧
    ¬ formatsDistinct [nodeA, nodeA] :=
  ⟨by decide, by decide⟩

theorem tryCandidatesSimple_some (sys : Sys) (files : List FileData) (path : List Node) :
    ∀ cands best st st2 r best2,
      tryCandidatesSimple sys files path cands best st = (st2, some r, best2) →
      ∃ c ∈ cands, r.2 = path ++ [c] := by
  intro cands
  induction cands with
  | nil => intro best st st2 r best2 h; simp [tryCandidatesSimple] at h
  | cons c rest ih =>
      intro best st st2 r best2 h
      simp only [tryCandidatesSimple] at h
      rcases hA : attemptConvertPath sys files (path ++ [c]) st with ⟨st1, q⟩
      rw [hA] at h
      cases q with
      | some r1 =>
          simp only [Prod.mk.injEq, Option.some.injEq] at h
          obtain ⟨h1, h2, h3⟩ := h
          subst h2
          refine ⟨c, List.mem_cons_self c rest, ?_⟩
          exact attemptConvertPath_path sys files (path ++ [c]) st r1 (by rw [hA])
      | none =>
          simp only at h
          obtain ⟨c1, hc1, hp⟩ := ih _ _ _ _ _ h
          exact ⟨c1, List.mem_cons_of_mem _ hc1, hp⟩

theorem tryAnyList_some (sys : Sys) (files : List FileData) (path : List Node) :
    ∀ cands st r,
      (tryAnyList sys files path cands st).2 = some r →
      ∃ c ∈ cands, r.2 = path ++ [c] := by
  intro cands
  induction cands with
  | nil => intro st r h; simp [tryAnyList] at h
  | cons c rest ih =>
      intro st r h
      simp only [tryAnyList] at h
      rcases hA : attemptConvertPath sys files (path ++ [c]) st with ⟨st1, q⟩
      rw [hA] at h
      cases q with
      | some r1 =>
          simp only [Option.some.injEq] at h
          subst h
          refine ⟨c, List.mem_cons_self c rest, ?_⟩
          exact attemptConvertPath_path sys files (path ++ [c]) st r1 (by rw [hA])
      | none =>
          simp only at h
          obtain ⟨c1, hc1, hp⟩ := ih _ _ h
          exact ⟨c1, List.mem_cons_of_mem _ hc1, hp⟩

theorem expandFormats_mem (path : List Node) (hid : Nat) :
    ∀ fmts n q, q ∈ (expandFormats path hid fmts n).1 →
      ∃ f nn, q = path ++ [⟨nn, f, hid⟩] ∧ (path.any (fun c => c.format == f)) = false := by
  intro fmts
  induction fmts with
  | nil => intro n q h; simp [expandFormats] at h
  | cons f rest ih =>
      intro n q h
      simp only [expandFormats] at h
      split at h
      · rename_i hcond
        rcases hE : expandFormats path hid rest (n + 1) with ⟨ps, n1⟩
        rw [hE] at h
        simp only [List.mem_cons] at h
        rcases h with h | h
        · refine ⟨f, n, h, ?_⟩
          have := (Bool.and_eq_true ..).mp hcond
          simpa using this.2
        · exact ih (n + 1) q (by rw [hE]; exact h)
      · exact ih _ _ h

theorem expandAll_mem (fc : FormatCache) (path : List Node) :
    ∀ hs n q, q ∈ (expandAll fc path hs n).1 →
      ∃ h ∈ hs, ∃ f nn, q = path ++ [⟨nn, f, h.hid⟩] ∧
        (path.any (fun c => c.format == f)) = false := by
  intro hs
  induction hs with
  | nil => intro n q h; simp [expandAll] at h
  | cons hh rest ih =>
      intro n q hmem
      simp only [expandAll] at hmem
      rcases hC : cacheGet fc hh.name with _ | fmts <;> rw [hC] at hmem <;>
        simp only at hmem
      · obtain ⟨h1, hh1, hrest⟩ := ih _ _ hmem
        exact ⟨h1, List.mem_cons_of_mem _ hh1, hrest⟩
      · rcases hE : expandFormats path hh.hid fmts n with ⟨ps, n1⟩
        rw [hE] at hmem
        rcases hE2 : expandAll fc path rest n1 with ⟨ps2, n2⟩
        rw [hE2] at hmem
        simp only at hmem
        rw [List.mem_append] at hmem
        rcases hmem with hmem | hmem
        · obtain ⟨f, nn, hq, hA⟩ := expandFormats_mem path hh.hid fmts n q (by rw [hE]; exact hmem)
          exact ⟨hh, List.mem_cons_self hh rest, f, nn, hq, hA⟩
        · obtain ⟨h1, hh1, hrest⟩ := ih n1 q (by rw [hE2]; exact hmem)
          exact ⟨h1, List.mem_cons_of_mem _ hh1, hrest⟩

theorem formatsDistinct_concat (path : List Node) (c : Node)
    (h1 : formatsDistinct path)
    (h2 : (path.any (fun x => x.format == c.format)) = false) :
    formatsDistinct (path ++ [c]) := by
  show (List.map _ _).Nodup
  rw [List.map_append]
  rw [List.nodup_append]
  refine ⟨h1, List.nodup_singleton _, ?_⟩
  intro a ha hb
  simp only [List.map_cons, List.map_nil, List.mem_singleton] at hb
  subst hb
  rw [List.mem_map] at ha
  obtain ⟨x, hx, hxf⟩ := ha
  have : path.any (fun y => y.format == c.format) = true :=
    List.any_eq_true.mpr ⟨x, hx, by simp [hxf]⟩
  rw [h2] at this
  exact Bool.false_ne_true this

/-- C2, amended: with no deadline set, every chain returned by the search
through a successful executor call has pairwise-distinct formats among
all but its final node; the final node, appended by the close phase or
the any-input fallback without the cycle check that guards queue
expansion, may repeat an earlier format. -/
theorem buildLoop_success_distinct (sys : Sys) (files : List FileData) (target : Node)
    (aO aI : List Node) :
    ∀ fuel queue nested best tick st fs p,
      (∀ q ∈ queue, formatsDistinct q) →
      (buildLoop sys files target aO aI none fuel queue nested best tick st).2 =
        some (.success fs p) →
      formatsDistinct p.dropLast := by
  intro fuel
  induction fuel with
  | zero =>
      intro queue nested best tick st fs p hq hres
      simp [buildLoop] at hres
  | succ fuel ih =>
      intro queue nested best tick st fs p hq hres
      cases queue with
      | nil => simp [buildLoop] at hres
      | cons path rest =>
        have hqpath : formatsDistinct path := hq path (List.mem_cons_self path rest)
        have hqrest : ∀ q ∈ rest, formatsDistinct q := fun q hq' =>
          hq q (List.mem_cons_of_mem _ hq')
        simp only [buildLoop] at hres
        rw [if_neg (show ¬(timeoutHit sys (none : Option Nat) tick = true) by
          simp [timeoutHit])] at hres
        by_cases hlen : path.length > 5
        · rw [if_pos hlen] at hres
          exact ih rest nested best (tick + 1) st fs p hqrest hres
        · rw [if_neg hlen] at hres
          rcases hprev : path.getLast? with _ | prev <;> rw [hprev] at hres <;>
            simp only at hres
          · exact ih rest nested best (tick + 1) _ fs p hqrest hres
          · split at hres
            · -- close phase succeeded
              rename_i st2 r best2 heq
              simp only [Option.some.injEq, BuildResult.success.injEq] at hres
              obtain ⟨hfs, hp⟩ := hres
              subst hp
              split at heq
              · obtain ⟨c, _, hr2⟩ := tryCandidatesSimple_some sys files path _ _ _ _ _ _ heq
                rw [hr2]
                simpa [List.dropLast_concat] using hqpath
              · split at heq
                · simp only [Prod.mk.injEq] at heq
                  obtain ⟨h1, h2, h3⟩ := heq
                  have hr2 := attemptConvertPath_path sys files (path ++ [target]) _ r h2
                  rw [hr2]
                  simpa [List.dropLast_concat] using hqpath
                · simp at heq
            · -- close phase failed
              rename_i st2 best2 heq
              split at hres
              · -- any-input fallback succeeded
                rename_i st3 r nested2 heq2
                simp only [Option.some.injEq, BuildResult.success.injEq] at hres
                obtain ⟨hfs, hp⟩ := hres
                subst hp
                split at heq2
                · simp at heq2
                · simp only [Prod.mk.injEq] at heq2
                  obtain ⟨h1, h2, h3⟩ := heq2
                  obtain ⟨c, _, hr2⟩ := tryAnyList_some sys files path _ _ r h2
                  rw [hr2]
                  simpa [List.dropLast_concat] using hqpath
              · -- expand and recurse
                rename_i st3 nested2 heq2
                refine ih _ nested2 best2 (tick + 1) _ fs p ?_ hres
                intro q hq'
                rw [List.mem_append] at hq'
                rcases hq' with hq' | hq'
                · exact hqrest q hq'
                · obtain ⟨h1, _, f, nn, hqf, hAny⟩ := expandAll_mem _ path _ _ q hq'
                  rw [hqf]
                  exact formatsDistinct_concat path _ hqpath (by simpa using hAny)

/-- Witness for `buildLoop_success_distinct` at the `sysA` search. -/
theorem buildLoop_success_distinct_witness :
    formatsDistinct (([nodeA, nodeA] : List Node).dropLast) :=
  buildLoop_success_distinct sysA [⟨"f", [9]⟩] nodeA [nodeA] [] 5 [[nodeA]] false none 0
    { stA with convertPathCache := [] } [⟨"out", [1]⟩] [nodeA, nodeA]
    (by decide) (by decide)

/-- C3, counterexample: `clickA` selects the same option (`nodeA`, MIME
`m`) as input and output; the bytes are downloaded unchanged, but the
flow still runs the search: it constructs and executes two chains and
invokes the handler's convert twice, contradicting the claim that no
chain is constructed and no handler is invoked. -/
theorem C3_counterexample :
    nodeA.format.mime = nodeA.format.mime ∧
    clickA.map (fun r => (convEvsCount r.st.log, (attemptPaths r.st.log).length, r.outcome)) =
      some (2, 2, .converted) ∧ (2 : Nat) ≠ 0 :=
  ⟨rfl, by decide, by decide⟩

/-- C3, amended: when the selected input MIME equals the selected output
MIME, every selected file's bytes are handed to the download surface
unchanged (they form the prefix of the click's downloads) — but the flow
is not short-circuited: path recall and the BFS search still run and may
construct chains and invoke handlers on the empty working file set. -/
theorem convertClick_passthrough_delivery (sys : Sys) (selectedFiles : List FileData)
    (inputOption outputOption : Node) (aO aI : List Node) (dl : Option Nat)
    (fuel : Nat) (store : PathStore) (st : St)
    (hm : inputOption.format.mime = outputOption.format.mime) :
    ∀ d, (convertClick sys selectedFiles inputOption outputOption aO aI dl fuel store st).map
        (fun r => r.downloads) = some d →
      d.take selectedFiles.length =
        selectedFiles.map (fun f => (f.name, f.bytes, inputOption.format.mime)) := by
  intro d hr
  have hpass : (inputOption.format.mime == outputOption.format.mime) = true :=
    beq_iff_eq.mpr hm
  simp only [convertClick, hpass, if_true] at hr
  have htake : ∀ extra : List (String × List Nat × Option String),
      ((selectedFiles.map (fun f => (f.name, f.bytes, inputOption.format.mime))) ++
        extra).take selectedFiles.length =
      selectedFiles.map (fun f => (f.name, f.bytes, inputOption.format.mime)) := by
    intro extra
    have h := List.take_left
      (selectedFiles.map (fun f => (f.name, f.bytes, inputOption.format.mime))) extra
    rw [List.length_map] at h
    exact h
  split at hr
  · simp only [Option.map_some', Option.some.injEq] at hr
    subst hr
    exact htake _
  · split at hr
    · simp at hr
    · simp only [Option.map_some', Option.some.injEq] at hr
      subst hr
      have := htake []
      simp only [List.append_nil] at this
      exact this
    · simp only [Option.map_some', Option.some.injEq] at hr
      subst hr
      have := htake []
      simp only [List.append_nil] at this
      exact this
    · split at hr
      · simp only [Option.map_some', Option.some.injEq] at hr
        subst hr
        exact htake _
      · split at hr
        · simp only [Option.map_some', Option.some.injEq] at hr
          subst hr
          exact htake _
        · simp only [Option.map_some', Option.some.injEq] at hr
          subst hr
          have := htake []
          simp only [List.append_nil] at this
          exact this

/-- Witness for `convertClick_passthrough_delivery` at `clickA`. -/
theorem convertClick_passthrough_delivery_witness :
    (([("f", [9], some "m"), ("out", [1], some "m")] :
        List (String × List Nat × Option String)).take 1) =
      [("f", [9], some "m")] :=
  convertClick_passthrough_delivery sysA [⟨"f", [9]⟩] nodeA nodeA [nodeA] [] none 5 [] stA
    rfl [("f", [9], some "m"), ("out", [1], some "m")] (by decide)

/-- A `sysA`-like system whose wall clock is already past any small
deadline. -/
def sysT : Sys := ⟨[hA], true, fun _ => 100⟩

/-- C4: at the top of a BFS iteration with the queue non-empty and the
clock past the (non-zero) deadline, the loop returns the prefix cache's
files and chain of nodes as a partial success, or the distinct timeout
sentinel when the cache is empty. -/
theorem buildLoop_deadline (sys : Sys) (files : List FileData) (target : Node)
    (aO aI : List Node) (d : Nat) (fuel : Nat) (p : List Node)
    (rest : List (List Node)) (nested : Bool) (best : Option (List Node))
    (tick : Nat) (st : St) (hd : d ≠ 0) (hc : sys.clock tick > d) :
    buildLoop sys files target aO aI (some d) (fuel + 1) (p :: rest) nested best tick st =
      (st, some (match st.convertPathCache.getLast? with
        | some last => .success last.1 (st.convertPathCache.map (fun c => c.2))
        | none => .timeout)) := by
  have ht : timeoutHit sys (some d) tick = true := by
    simp only [timeoutHit, Bool.and_eq_true, bne_iff_ne, ne_eq, decide_eq_true_eq]
    exact ⟨hd, hc⟩
  simp only [buildLoop, ht, if_true]
  cases hl : st.convertPathCache.getLast? <;> rfl

/-- Witness for `buildLoop_deadline`: empty prefix cache, so the distinct
timeout sentinel is returned. -/
theorem buildLoop_deadline_witness :
    buildLoop sysT [⟨"f", [9]⟩] nodeA [nodeA] [] (some 50) 3 [[nodeA]] false none 0 stA =
      (stA, some .timeout) :=
  (buildLoop_deadline sysT [⟨"f", [9]⟩] nodeA [nodeA] [] 50 2 [nodeA] [] false none 0 stA
    (by decide) (by decide)).trans (by rfl)

/-! Lemmas about handler lookup, readiness preservation and adjacency. -/

theorem find?_map_keyInv {α : Type} (f : α → α) (p : α → Bool)
    (hf : ∀ a, p (f a) = p a) : ∀ l : List α, (l.map f).find? p = (l.find? p).map f := by
  intro l
  induction l with
  | nil => rfl
  | cons a t ih =>
      simp only [List.map_cons]
      cases hpa : p a
      · rw [List.find?_cons_of_neg _ (by rw [hf a, hpa]; exact Bool.false_ne_true),
          List.find?_cons_of_neg _ (by rw [hpa]; exact Bool.false_ne_true)]
        exact ih
      · rw [List.find?_cons_of_pos _ (by rw [hf a, hpa]),
          List.find?_cons_of_pos _ (by rw [hpa])]
        rfl

theorem hstGet_hstSet_ready (st : St) (hid : Nat) (hs : HState) (x : Nat)
    (h1 : (hstGet st x).ready = true) (h2 : hs.ready = true) :
    (hstGet (hstSet st hid hs) x).ready = true := by
  unfold hstGet at h1 ⊢
  unfold hstSet
  simp only
  rw [find?_map_keyInv (fun pr => if pr.1 == hid then (pr.1, hs) else pr)
    (fun pr => pr.1 == x)
    (by intro a; by_cases ha : a.1 == hid <;> simp [ha]) st.hstates]
  cases hfind : st.hstates.find? (fun pr => pr.1 == x) with
  | none => rw [hfind] at h1; simp at h1
  | some pr =>
      rw [hfind] at h1
      simp only [Option.map_some', Option.getD_some] at h1 ⊢
      by_cases hpr : pr.1 == hid <;> simp [hpr, h2, h1]

theorem readyAll_hstSet (sys : Sys) (st : St) (hid : Nat) (hs : HState)
    (h1 : readyAll sys st) (h2 : hs.ready = true) : readyAll sys (hstSet st hid hs) :=
  fun h hmem => hstGet_hstSet_ready st hid hs h.hid (h1 h hmem) h2

theorem findH_mem (sys : Sys) (hid : Nat) (h : HandlerBeh) (hf : sys.findH hid = some h) :
    h ∈ sys.handlers ∧ h.hid = hid := by
  unfold Sys.findH at hf
  exact ⟨List.mem_of_find?_eq_some hf, by simpa using List.find?_some hf⟩

theorem declaresFrom_findH (sys : Sys) (fc : FormatCache) (m : Option String) (hid : Nat)
    (hnd : nodupHids sys) (hd : declaresFrom sys fc m hid = true) :
    ∃ h, sys.findH hid = some h ∧ handlerReadsMime fc h m = true := by
  unfold declaresFrom at hd
  rw [List.any_eq_true] at hd
  obtain ⟨h1, hmem, hp⟩ := hd
  rw [Bool.and_eq_true] at hp
  obtain ⟨hhid, hreads⟩ := hp
  have hhid1 : h1.hid = hid := by simpa using hhid
  have hsome : (sys.handlers.find? (fun h => h.hid == hid)).isSome := by
    rw [List.find?_isSome]
    exact ⟨h1, hmem, hhid⟩
  obtain ⟨h2, hf⟩ := Option.isSome_iff_exists.mp hsome
  obtain ⟨hmem2, hhid2⟩ := findH_mem sys hid h2 hf
  have heq : h1 = h2 :=
    List.inj_on_of_nodup_map hnd hmem hmem2 (by rw [hhid1, hhid2])
  subst heq
  exact ⟨h1, hf, hreads⟩

theorem contains_valid_declares (sys : Sys) (fc : FormatCache) (m : Option String) (hid : Nat)
    (h : ((sys.handlers.filter (fun hh => handlerReadsMime fc hh m)).map
      (fun hh => hh.hid)).contains hid = true) :
    declaresFrom sys fc m hid = true := by
  have hmem : hid ∈ (sys.handlers.filter
      (fun hh => handlerReadsMime fc hh m)).map (fun hh => hh.hid) := by
    simpa using h
  rw [List.mem_map] at hmem
  obtain ⟨hh, hmemF, hhid⟩ := hmem
  rw [List.mem_filter] at hmemF
  obtain ⟨hmemH, hreads⟩ := hmemF
  unfold declaresFrom
  rw [List.any_eq_true]
  exact ⟨hh, hmemH, by rw [Bool.and_eq_true]; exact ⟨by simpa using hhid, hreads⟩⟩

theorem chainAdj_concat (sys : Sys) (fc : FormatCache) :
    ∀ path : List Node, ∀ c : Node, chainAdj sys fc path = true →
      (∀ x, path.getLast? = some x → declaresFrom sys fc x.format.mime c.handler = true) →
      chainAdj sys fc (path ++ [c]) = true
  | [], c, _, _ => rfl
  | [a], c, _, h2 => by
      simp only [List.cons_append, List.nil_append, chainAdj, Bool.and_eq_true]
      exact ⟨h2 a rfl, trivial⟩
  | a :: b :: rest, c, h1, h2 => by
      simp only [chainAdj, Bool.and_eq_true] at h1
      have := chainAdj_concat sys fc (b :: rest) c h1.2
        (fun x hx => h2 x (by rw [List.getLast?_cons_cons]; exact hx))
      simp only [List.cons_append, chainAdj, Bool.and_eq_true]
      exact ⟨h1.1, by simpa using this⟩

theorem chainAdj_zip (sys : Sys) (fc : FormatCache) :
    ∀ p : List Node, chainAdj sys fc p = true →
      ∀ pr ∈ p.zip p.tail, declaresFrom sys fc pr.1.format.mime pr.2.handler = true
  | [], _, pr, hpr => by simp at hpr
  | [a], _, pr, hpr => by simp at hpr
  | a :: b :: rest, hadj, pr, hpr => by
      simp only [chainAdj, Bool.and_eq_true] at hadj
      simp only [List.tail_cons, List.zip_cons_cons, List.mem_cons] at hpr
      rcases hpr with hpr | hpr
      · subst hpr
        exact hadj.1
      · exact chainAdj_zip sys fc (b :: rest) hadj.2 pr (by simpa using hpr)

theorem zip_mem_dropLast_or_last :
    ∀ (p : List Node) (pr : Node × Node), pr ∈ p.zip p.tail →
      pr ∈ p.dropLast.zip p.dropLast.tail ∨ p.getLast? = some pr.2
  | [], pr, hpr => by simp at hpr
  | [a], pr, hpr => by simp at hpr
  | [a, b], pr, hpr => by
      simp only [List.tail_cons, List.zip_cons_cons, List.zip_nil_right,
        List.mem_cons, List.not_mem_nil, or_false] at hpr
      subst hpr
      right
      rfl
  | a :: b :: c :: rest, pr, hpr => by
      simp only [List.tail_cons, List.zip_cons_cons, List.mem_cons] at hpr
      rcases hpr with hpr | hpr
      · subst hpr
        left
        simp only [List.dropLast_cons₂, List.tail_cons, List.zip_cons_cons, List.mem_cons]
        exact Or.inl trivial
      · rcases zip_mem_dropLast_or_last (b :: c :: rest) pr (by simpa using hpr) with h | h
        · left
          simp only [List.dropLast_cons₂, List.tail_cons, List.zip_cons_cons, List.mem_cons]
          right
          simpa using h
        · right
          rw [List.getLast?_cons_cons]
          exact h

theorem pairs_ok (sys : Sys) (fc : FormatCache) (p : List Node)
    (hOK : attemptOKb sys fc p = true) :
    ∀ pr ∈ p.zip p.tail, pairOK sys fc pr = true := by
  intro pr hpr
  unfold attemptOKb at hOK
  rw [Bool.and_eq_true, Bool.or_eq_true] at hOK
  obtain ⟨hdrop, hfull⟩ := hOK
  unfold pairOK
  rw [Bool.or_eq_true]
  rcases hfull with hfull | hany
  · exact Or.inl (chainAdj_zip sys fc p hfull pr hpr)
  · rcases zip_mem_dropLast_or_last p pr hpr with h | h
    · exact Or.inl (chainAdj_zip sys fc p.dropLast hdrop pr h)
    · unfold anyLast at hany
      rw [h] at hany
      exact Or.inr hany

theorem hopStep_evOK (sys : Sys) (fc : FormatCache) (prev next : Node)
    (files : List FileData) (st : St)
    (hready : readyAll sys st) (hfc : st.supportedFormatCache = fc)
    (hnd : nodupHids sys) (hpr : pairOK sys fc (prev, next) = true)
    (hlog : ∀ e ∈ st.log, evOKb sys fc e = true) :
    (hopStep sys prev next files st).1.supportedFormatCache = fc ∧
    readyAll sys (hopStep sys prev next files st).1 ∧
    ∀ e ∈ (hopStep sys prev next files st).1.log, evOKb sys fc e = true := by
  simp only [hopStep]
  split
  · exact ⟨hfc, hready, hlog⟩
  · rename_i h hfind
    obtain ⟨hmem, hhid⟩ := findH_mem sys next.handler h hfind
    have hrdy : (hstGet st h.hid).ready = true := hready h hmem
    rw [show initPhase h st = (st, cacheGet st.supportedFormatCache h.name, true) by
      simp [initPhase, hrdy]]
    rcases hcg : cacheGet st.supportedFormatCache h.name with _ | fmts
    · exact ⟨hfc, hready, hlog⟩
    · simp only
      have hnewlog : ∀ (tf : Nat) (ok : Bool),
          ∀ e ∈ st.log ++ [Ev.convEv h.hid ((fmts.find? (fun c =>
            c.mime == prev.format.mime && c.isFrom)).map (fun f => f.fid)) tf ok],
          evOKb sys fc e = true := by
        intro tf ok e he
        rw [List.mem_append] at he
        rcases he with he | he
        · exact hlog e he
        · rw [List.mem_singleton] at he
          subst he
          rcases hfind2 : fmts.find? (fun c => c.mime == prev.format.mime && c.isFrom)
            with _ | ff <;> rw [hfind2]
          · show anyInputB sys h.hid = true
            unfold pairOK at hpr
            rw [Bool.or_eq_true] at hpr
            rcases hpr with hpr | hpr
            · exfalso
              obtain ⟨h2, hf2, hreads⟩ := declaresFrom_findH sys fc prev.format.mime
                next.handler hnd hpr
              rw [hfind] at hf2
              cases hf2
              unfold handlerReadsMime at hreads
              rw [← hfc, hcg] at hreads
              rw [List.any_eq_true] at hreads
              obtain ⟨f, hfmem, hfp⟩ := hreads
              have hisSome : (fmts.find? (fun c =>
                  c.mime == prev.format.mime && c.isFrom)).isSome := by
                rw [List.find?_isSome]
                exact ⟨f, hfmem, hfp⟩
              rw [hfind2] at hisSome
              simp at hisSome
            · rw [hhid]
              exact hpr
          · rfl
      have hready2 : readyAll sys (hstSet st h.hid
          { hstGet st h.hid with convertCount := (hstGet st h.hid).convertCount + 1 }) :=
        readyAll_hstSet sys st h.hid _ hready hrdy
      split
      · exact ⟨hfc, hready2, hnewlog _ _⟩
      · split
        · exact ⟨hfc, hready2, hnewlog _ _⟩
        · exact ⟨hfc, hready2, hnewlog _ _⟩

theorem attemptStep_evOK (sys : Sys) (fc : FormatCache) (hnd : nodupHids sys) :
    ∀ pairs files st,
      readyAll sys st → st.supportedFormatCache = fc →
      (∀ pr ∈ pairs, pairOK sys fc pr = true) →
      (∀ e ∈ st.log, evOKb sys fc e = true) →
      (attemptStep sys pairs files st).1.supportedFormatCache = fc ∧
      readyAll sys (attemptStep sys pairs files st).1 ∧
      ∀ e ∈ (attemptStep sys pairs files st).1.log, evOKb sys fc e = true := by
  intro pairs
  induction pairs with
  | nil => intro files st h1 h2 _ h4; exact ⟨h2, h1, h4⟩
  | cons pr rest ih =>
      intro files st h1 h2 h3 h4
      obtain ⟨prev, next⟩ := pr
      simp only [attemptStep]
      obtain ⟨hc, hr, hl⟩ := hopStep_evOK sys fc prev next files st h1 h2 hnd
        (h3 (prev, next) (List.mem_cons_self _ _)) h4
      rcases hH : hopStep sys prev next files st with ⟨st1, q⟩
      rw [hH] at hc hr hl
      cases q
      · exact ⟨hc, hr, hl⟩
      · exact ih _ st1 hr hc (fun x hx => h3 x (List.mem_cons_of_mem _ hx)) hl

theorem attemptConvertPath_evOK (sys : Sys) (fc : FormatCache) (files : List FileData)
    (p : List Node) (st : St) (hnd : nodupHids sys)
    (hready : readyAll sys st) (hfc : st.supportedFormatCache = fc)
    (hOK : attemptOKb sys fc p = true)
    (hlog : ∀ e ∈ st.log, evOKb sys fc e = true) :
    (attemptConvertPath sys files p st).1.supportedFormatCache = fc ∧
    readyAll sys (attemptConvertPath sys files p st).1 ∧
    ∀ e ∈ (attemptConvertPath sys files p st).1.log, evOKb sys fc e = true := by
  simp only [attemptConvertPath]
  have hlog0 : ∀ e ∈ (logEv st (.attemptStart p)).log, evOKb sys fc e = true := by
    intro e he
    rw [log_logEv, List.mem_append] at he
    rcases he with he | he
    · exact hlog e he
    · rw [List.mem_singleton] at he
      subst he
      exact hOK
  have hpairs : ∀ s : Nat, ∀ pr ∈ (p.zip p.tail).drop s, pairOK sys fc pr = true :=
    fun s pr hpr => pairs_ok sys fc p hOK pr (List.mem_of_mem_drop hpr)
  simp only [show (logEv st (Ev.attemptStart p)).convertPathCache = st.convertPathCache
    from rfl]
  rcases hlast : st.convertPathCache.getLast? with _ | c <;> simp only
  · obtain ⟨hc, hr, hl⟩ := attemptStep_evOK sys fc hnd ((p.zip p.tail).drop 0) files
      (logEv st (.attemptStart p)) hready hfc (hpairs 0) hlog0
    rcases hA : attemptStep sys ((p.zip p.tail).drop 0) files (logEv st (.attemptStart p))
      with ⟨st1, q⟩
    rw [hA] at hc hr hl
    cases q <;> exact ⟨hc, hr, hl⟩
  · obtain ⟨hc, hr, hl⟩ := attemptStep_evOK sys fc hnd
      ((p.zip p.tail).drop st.convertPathCache.length) c.1
      (logEv st (.attemptStart p)) hready hfc (hpairs _) hlog0
    rcases hA : attemptStep sys
      ((p.zip p.tail).drop st.convertPathCache.length) c.1
      (logEv st (.attemptStart p)) with ⟨st1, q⟩
    rw [hA] at hc hr hl
    cases q <;> exact ⟨hc, hr, hl⟩

theorem tryCandidatesSimple_evOK (sys : Sys) (fc : FormatCache) (files : List FileData)
    (path : List Node) (hnd : nodupHids sys) :
    ∀ cands best st,
      readyAll sys st → st.supportedFormatCache = fc →
      (∀ c ∈ cands, attemptOKb sys fc (path ++ [c]) = true) →
      (∀ e ∈ st.log, evOKb sys fc e = true) →
      (tryCandidatesSimple sys files path cands best st).1.supportedFormatCache = fc ∧
      readyAll sys (tryCandidatesSimple sys files path cands best st).1 ∧
      ∀ e ∈ (tryCandidatesSimple sys files path cands best st).1.log,
        evOKb sys fc e = true := by
  intro cands
  induction cands with
  | nil => intro best st h1 h2 _ h4; exact ⟨h2, h1, h4⟩
  | cons c rest ih =>
      intro best st h1 h2 h3 h4
      simp only [tryCandidatesSimple]
      obtain ⟨hc, hr, hl⟩ := attemptConvertPath_evOK sys fc files (path ++ [c]) st hnd
        h1 h2 (h3 c (List.mem_cons_self _ _)) h4
      rcases hA : attemptConvertPath sys files (path ++ [c]) st with ⟨st1, q⟩
      rw [hA] at hc hr hl
      cases q
      · exact ih _ st1 hr hc (fun x hx => h3 x (List.mem_cons_of_mem _ hx)) hl
      · exact ⟨hc, hr, hl⟩

theorem tryAnyList_evOK (sys : Sys) (fc : FormatCache) (files : List FileData)
    (path : List Node) (hnd : nodupHids sys) :
    ∀ cands st,
      readyAll sys st → st.supportedFormatCache = fc →
      (∀ c ∈ cands, attemptOKb sys fc (path ++ [c]) = true) →
      (∀ e ∈ st.log, evOKb sys fc e = true) →
      (tryAnyList sys files path cands st).1.supportedFormatCache = fc ∧
      readyAll sys (tryAnyList sys files path cands st).1 ∧
      ∀ e ∈ (tryAnyList sys files path cands st).1.log, evOKb sys fc e = true := by
  intro cands
  induction cands with
  | nil => intro st h1 h2 _ h4; exact ⟨h2, h1, h4⟩
  | cons c rest ih =>
      intro st h1 h2 h3 h4
      simp only [tryAnyList]
      obtain ⟨hc, hr, hl⟩ := attemptConvertPath_evOK sys fc files (path ++ [c]) st hnd
        h1 h2 (h3 c (List.mem_cons_self _ _)) h4
      rcases hA : attemptConvertPath sys files (path ++ [c]) st with ⟨st1, q⟩
      rw [hA] at hc hr hl
      cases q
      · exact ih st1 hr hc (fun x hx => h3 x (List.mem_cons_of_mem _ hx)) hl
      · exact ⟨hc, hr, hl⟩

theorem attemptOKb_concat_adj (sys : Sys) (fc : FormatCache) (path : List Node) (c : Node)
    (h1 : chainAdj sys fc path = true) (h2 : chainAdj sys fc (path ++ [c]) = true) :
    attemptOKb sys fc (path ++ [c]) = true := by
  unfold attemptOKb
  rw [List.dropLast_concat, h1, h2]
  rfl

theorem attemptOKb_concat_any (sys : Sys) (fc : FormatCache) (path : List Node) (c : Node)
    (h1 : chainAdj sys fc path = true) (h2 : anyInputB sys c.handler = true) :
    attemptOKb sys fc (path ++ [c]) = true := by
  unfold attemptOKb
  rw [List.dropLast_concat, h1]
  have hl : anyLast sys (path ++ [c]) = true := by
    unfold anyLast
    rw [List.getLast?_concat]
    exact h2
  rw [hl]
  simp

theorem chainAdj_close (sys : Sys) (fc : FormatCache) (path : List Node) (prev c : Node)
    (hadj : chainAdj sys fc path = true) (hprev : path.getLast? = some prev)
    (hd : declaresFrom sys fc prev.format.mime c.handler = true) :
    chainAdj sys fc (path ++ [c]) = true :=
  chainAdj_concat sys fc path c hadj (fun x hx => by
    rw [hprev] at hx
    cases hx
    exact hd)

/-- The combined soundness induction over the BFS loop: with every handler
ready (so the format cache is stable), distinct handler identities,
any-input entries really marked `supportAnyInput`, and every queued chain
adjacency-correct, every event the loop ever logs is sound: executor
entries carry chains that are adjacency-correct except possibly at a
final any-input hop, and a convert call receives `undefined` as its input
format only on an any-input handler. -/
theorem buildLoop_evOK (sys : Sys) (files : List FileData) (target : Node)
    (aO aI : List Node) (dl : Option Nat) (fc : FormatCache)
    (hnd : nodupHids sys) (hanyI : ∀ o ∈ aI, anyInputB sys o.handler = true) :
    ∀ fuel queue nested best tick st,
      readyAll sys st → st.supportedFormatCache = fc →
      (∀ q ∈ queue, chainAdj sys fc q = true) →
      (∀ e ∈ st.log, evOKb sys fc e = true) →
      ∀ e ∈ (buildLoop sys files target aO aI dl fuel queue nested best tick st).1.log,
        evOKb sys fc e = true := by
  intro fuel
  induction fuel with
  | zero =>
      intro queue nested best tick st _ _ _ h4
      simpa [buildLoop] using h4
  | succ fuel ih =>
      intro queue nested best tick st h1 h2 h3 h4
      cases queue with
      | nil => simpa [buildLoop] using h4
      | cons path rest =>
        have hqpath : chainAdj sys fc path = true := h3 path (List.mem_cons_self path rest)
        have hqrest : ∀ q ∈ rest, chainAdj sys fc q = true := fun q hq' =>
          h3 q (List.mem_cons_of_mem _ hq')
        simp only [buildLoop]
        by_cases htm : timeoutHit sys dl tick = true
        · rw [if_pos htm]
          cases st.convertPathCache.getLast? <;> exact h4
        · rw [if_neg htm]
          by_cases hlen : path.length > 5
          · rw [if_pos hlen]
            exact ih rest nested best (tick + 1) st h1 h2 hqrest h4
          · rw [if_neg hlen]
            rcases hprev : path.getLast? with _ | prev <;> simp only
            · exact ih rest nested best (tick + 1) _ h1 h2 hqrest h4
            · -- the realigned state: readiness, format cache and log untouched
              have hcandOK : ∀ c ∈ aO.filter (fun o =>
                  ((sys.handlers.filter (fun h => handlerReadsMime
                    st.supportedFormatCache h prev.format.mime)).map
                    (fun h => h.hid)).contains o.handler &&
                  o.format.mime == target.format.mime && o.format.isTo),
                  attemptOKb sys fc (path ++ [c]) = true := by
                intro c hcm
                rw [List.mem_filter] at hcm
                obtain ⟨_, hcond⟩ := hcm
                rw [Bool.and_eq_true, Bool.and_eq_true] at hcond
                have hdecl : declaresFrom sys fc prev.format.mime c.handler = true := by
                  refine contains_valid_declares sys fc prev.format.mime c.handler ?_
                  rw [← h2]
                  exact hcond.1.1
                exact attemptOKb_concat_adj sys fc path c hqpath
                  (chainAdj_close sys fc path prev c hqpath hprev hdecl)
              have hanyOK : ∀ c ∈ aI.filter (fun c => c.format.mime == target.format.mime),
                  attemptOKb sys fc (path ++ [c]) = true := by
                intro c hcm
                exact attemptOKb_concat_any sys fc path c hqpath
                  (hanyI c (List.mem_of_mem_filter hcm))
              have htargetOK : ∀ hcontains : ((sys.handlers.filter
                  (fun h => handlerReadsMime st.supportedFormatCache h
                    prev.format.mime)).map (fun h => h.hid)).contains
                    target.handler = true,
                  attemptOKb sys fc (path ++ [target]) = true := by
                intro hcontains
                have hdecl : declaresFrom sys fc prev.format.mime target.handler = true := by
                  refine contains_valid_declares sys fc prev.format.mime target.handler ?_
                  rw [← h2]
                  exact hcontains
                exact attemptOKb_concat_adj sys fc path target hqpath
                  (chainAdj_close sys fc path prev target hqpath hprev hdecl)
              split
              · -- close phase succeeded
                rename_i st2 r best2 heq
                split at heq
                · obtain ⟨hc, hr, hl⟩ := tryCandidatesSimple_evOK sys fc files path hnd
                    _ best { st with convertPathCache := realign path st.convertPathCache }
                    h1 h2 hcandOK h4
                  rw [heq] at hl
                  exact hl
                · split at heq
                  · rename_i hcontains
                    obtain ⟨hc, hr, hl⟩ := attemptConvertPath_evOK sys fc files
                      (path ++ [target])
                      { st with convertPathCache := realign path st.convertPathCache } hnd
                      h1 h2 (htargetOK hcontains) h4
                    simp only [Prod.mk.injEq] at heq
                    obtain ⟨he1, _, _⟩ := heq
                    rw [he1] at hl
                    exact hl
                  · exact absurd heq (by simp)
              · -- close phase failed
                rename_i st2 best2 heq
                have htriple2 : st2.supportedFormatCache = fc ∧ readyAll sys st2 ∧
                    ∀ e ∈ st2.log, evOKb sys fc e = true := by
                  split at heq
                  · obtain ⟨hc, hr, hl⟩ := tryCandidatesSimple_evOK sys fc files path hnd
                      _ best { st with convertPathCache := realign path st.convertPathCache }
                      h1 h2 hcandOK h4
                    rw [heq] at hc hr hl
                    exact ⟨hc, hr, hl⟩
                  · split at heq
                    · rename_i hcontains
                      obtain ⟨hc, hr, hl⟩ := attemptConvertPath_evOK sys fc files
                        (path ++ [target])
                        { st with convertPathCache := realign path st.convertPathCache } hnd
                        h1 h2 (htargetOK hcontains) h4
                      simp only [Prod.mk.injEq] at heq
                      obtain ⟨he1, _, _⟩ := heq
                      rw [he1] at hc hr hl
                      exact ⟨hc, hr, hl⟩
                    · simp only [Prod.mk.injEq] at heq
                      obtain ⟨he1, _, _⟩ := heq
                      rw [← he1]
                      exact ⟨h2, h1, h4⟩
                obtain ⟨hc2, hr2, hl2⟩ := htriple2
                split
                · -- any-input succeeded
                  rename_i st3 r nested2 heq2
                  split at heq2
                  · exact absurd heq2 (by simp)
                  · obtain ⟨hc, hr, hl⟩ := tryAnyList_evOK sys fc files path hnd
                      _ st2 hr2 hc2 hanyOK hl2
                    simp only [Prod.mk.injEq] at heq2
                    obtain ⟨he1, _, _⟩ := heq2
                    rw [he1] at hl
                    exact hl
                · -- any-input failed or skipped: expand and recurse
                  rename_i st3 nested2 heq2
                  have htriple3 : st3.supportedFormatCache = fc ∧ readyAll sys st3 ∧
                      ∀ e ∈ st3.log, evOKb sys fc e = true := by
                    split at heq2
                    · simp only [Prod.mk.injEq] at heq2
                      obtain ⟨he1, _, _⟩ := heq2
                      rw [← he1]
                      exact ⟨hc2, hr2, hl2⟩
                    · obtain ⟨hc, hr, hl⟩ := tryAnyList_evOK sys fc files path hnd
                        _ st2 hr2 hc2 hanyOK hl2
                      simp only [Prod.mk.injEq] at heq2
                      obtain ⟨he1, _, _⟩ := heq2
                      rw [he1] at hc hr hl
                      exact ⟨hc, hr, hl⟩
                  obtain ⟨hc3, hr3, hl3⟩ := htriple3
                  refine ih _ nested2 best2 (tick + 1) _ hr3 hc3 ?_ hl3
                  intro q hq'
                  rw [List.mem_append] at hq'
                  rcases hq' with hq' | hq'
                  · exact hqrest q hq'
                  · obtain ⟨hh, hhm, f, nn, hqf, _⟩ := expandAll_mem _ path _ _ q hq'
                    rw [List.mem_filter] at hhm
                    obtain ⟨hhmem, hhreads⟩ := hhm
                    have hdecl : declaresFrom sys fc prev.format.mime hh.hid = true := by
                      unfold declaresFrom
                      rw [List.any_eq_true]
                      refine ⟨hh, hhmem, ?_⟩
                      rw [Bool.and_eq_true]
                      refine ⟨by simp, ?_⟩
                      rw [← h2]
                      exact hhreads
                    rw [hqf]
                    exact chainAdj_close sys fc path prev _ hqpath hprev hdecl

theorem mem_attemptPaths (l : List Ev) (q : List Node) (h : q ∈ attemptPaths l) :
    Ev.attemptStart q ∈ l := by
  unfold attemptPaths at h
  rw [List.mem_filterMap] at h
  obtain ⟨e, he, hq⟩ := h
  cases e <;> simp only [Option.some.injEq] at hq
  · exact absurd hq (by simp)
  · exact absurd hq (by simp)
  · subst hq
    exact he

/-- C5, amended: with every handler ready (stable format cache), distinct
handler identities and a well-formed any-input pool, every chain the
search hands to the executor is adjacency-correct at every hop except
possibly its final one, and a final hop lacking a `from`-declared entry
for the previous MIME can only be an any-input append (the fallback adds
those without the adjacency check). -/
theorem buildConvertPath_adjacency (sys : Sys) (files : List FileData) (target : Node)
    (aO aI : List Node) (dl : Option Nat) (queue0 : List (List Node)) (fuel : Nat)
    (st : St) (hnd : nodupHids sys)
    (hanyI : ∀ o ∈ aI, anyInputB sys o.handler = true)
    (hready : readyAll sys st)
    (hq : ∀ q ∈ queue0, chainAdj sys st.supportedFormatCache q = true)
    (hlog : st.log = []) :
    ∀ q ∈ attemptPaths
      (buildConvertPath sys files target aO aI dl queue0 fuel st).1.log,
      attemptOKb sys st.supportedFormatCache q = true := by
  intro q hmem
  have hall := buildLoop_evOK sys files target aO aI dl st.supportedFormatCache hnd hanyI
    fuel queue0 false none 0 { st with convertPathCache := [] }
    hready rfl hq (by rw [hlog]; intro e he; exact absurd he (List.not_mem_nil e))
  exact hall (Ev.attemptStart q) (mem_attemptPaths _ q hmem)

/-- Witness for `buildConvertPath_adjacency`: the single chain executed by
the `sysR` search satisfies the except-final-any-input adjacency shape. -/
theorem buildConvertPath_adjacency_witness :
    attemptOKb sysR stR.supportedFormatCache [⟨0, fra, 0⟩, ⟨50, frt, 1⟩] = true :=
  buildConvertPath_adjacency sysR [⟨"f", [9]⟩] ⟨1, frt, 1⟩ allOptionsR anyInputsR none
    [[⟨0, fra, 0⟩]] 5 stR (by decide) (by decide) (by decide) (by decide) rfl
    [⟨0, fra, 0⟩, ⟨50, frt, 1⟩] (by decide)

/-- C5, counterexample: the `sysR` search executes (and returns as its
success) the any-input-completed chain `a → t`, whose final handler
declares no `from`-enabled format with MIME `a` — adjacency fails on an
executed chain, contradicting the claim's "including chains completed via
the any-input fallback". -/
theorem C5_counterexample :
    attemptPaths runR.1.log = [[⟨0, fra, 0⟩, ⟨50, frt, 1⟩]] ∧
    runR.2 = some (.success [⟨"r", [1]⟩] [⟨0, fra, 0⟩, ⟨50, frt, 1⟩]) ∧
    chainAdj sysR stR.supportedFormatCache [⟨0, fra, 0⟩, ⟨50, frt, 1⟩] = false :=
  ⟨by decide, by decide, by decide⟩

/-- C8, amended: under the same readiness hypotheses, the executor's
input-format lookup yields an entry at every hop whose edge was built by
the close phase or queue expansion; it can yield no entry (and the code
then forwards `undefined` to `doConvert`) only at a hop whose handler is
a `supportAnyInput` handler appended by the fallback. -/
theorem buildConvertPath_lookup (sys : Sys) (files : List FileData) (target : Node)
    (aO aI : List Node) (dl : Option Nat) (queue0 : List (List Node)) (fuel : Nat)
    (st : St) (hnd : nodupHids sys)
    (hanyI : ∀ o ∈ aI, anyInputB sys o.handler = true)
    (hready : readyAll sys st)
    (hq : ∀ q ∈ queue0, chainAdj sys st.supportedFormatCache q = true)
    (hlog : st.log = []) :
    ∀ hid tf ok, Ev.convEv hid none tf ok ∈
      (buildConvertPath sys files target aO aI dl queue0 fuel st).1.log →
      anyInputB sys hid = true := by
  intro hid tf ok hmem
  have hall := buildLoop_evOK sys files target aO aI dl st.supportedFormatCache hnd hanyI
    fuel queue0 false none 0 { st with convertPathCache := [] }
    hready rfl hq (by rw [hlog]; intro e he; exact absurd he (List.not_mem_nil e))
  exact hall (Ev.convEv hid none tf ok) hmem

/-- Witness for `buildConvertPath_lookup`: the failed lookup in the `sysR`
search happened on the renamer, which is a `supportAnyInput` handler. -/
theorem buildConvertPath_lookup_witness : anyInputB sysR 1 = true :=
  buildConvertPath_lookup sysR [⟨"f", [9]⟩] ⟨1, frt, 1⟩ allOptionsR anyInputsR none
    [[⟨0, fra, 0⟩]] 5 stR (by decide) (by decide) (by decide) (by decide) rfl
    1 1 true (by decide)

/-- C8, counterexample: in the `sysR` search the executed any-input hop's
input-format lookup finds no entry — the convert event records `none` as
the forwarded input format — contradicting the claim that the lookup
never yields no entry. -/
theorem C8_counterexample :
    runR.1.log = [.attemptStart [⟨0, fra, 0⟩, ⟨50, frt, 1⟩], .convEv 1 none 1 true] ∧
    (stR.supportedFormatCache.find? (fun p => p.1 == "R")).map
      (fun p => p.2.find? (fun c => c.mime == fra.mime && c.isFrom)) = some none :=
  ⟨by decide, by decide⟩

theorem attemptConvertPath_attemptPaths (sys : Sys) (files : List FileData)
    (p : List Node) (st : St) :
    attemptPaths (attemptConvertPath sys files p st).1.log = attemptPaths st.log ++ [p] := by
  obtain ⟨l, hl, hp, _⟩ := attemptConvertPath_log sys files p st
  rw [hl, attemptPaths_append, attemptPaths_append, hp]
  simp [attemptPaths]

theorem tryCandidatesSimple_attemptsQ (sys : Sys) (files : List FileData)
    (path : List Node) (Q : List Node → Prop) :
    ∀ cands best st,
      (∀ q ∈ attemptPaths st.log, Q q) →
      (∀ c ∈ cands, Q (path ++ [c])) →
      ∀ q ∈ attemptPaths (tryCandidatesSimple sys files path cands best st).1.log, Q q := by
  intro cands
  induction cands with
  | nil => intro best st h1 _ q hq; exact h1 q hq
  | cons c rest ih =>
      intro best st h1 h2
      simp only [tryCandidatesSimple]
      have hpaths := attemptConvertPath_attemptPaths sys files (path ++ [c]) st
      rcases hA : attemptConvertPath sys files (path ++ [c]) st with ⟨st1, r⟩
      rw [hA] at hpaths
      have h1' : ∀ q ∈ attemptPaths st1.log, Q q := by
        intro q hq
        rw [show st1.log = (st1, r).1.log from rfl, hpaths, List.mem_append] at hq
        rcases hq with hq | hq
        · exact h1 q hq
        · rw [List.mem_singleton] at hq
          subst hq
          exact h2 c (List.mem_cons_self _ _)
      cases r
      · exact ih _ st1 h1' (fun x hx => h2 x (List.mem_cons_of_mem _ hx))
      · exact h1'

theorem tryAnyList_attemptsQ (sys : Sys) (files : List FileData)
    (path : List Node) (Q : List Node → Prop) :
    ∀ cands st,
      (∀ q ∈ attemptPaths st.log, Q q) →
      (∀ c ∈ cands, Q (path ++ [c])) →
      ∀ q ∈ attemptPaths (tryAnyList sys files path cands st).1.log, Q q := by
  intro cands
  induction cands with
  | nil => intro st h1 _ q hq; exact h1 q hq
  | cons c rest ih =>
      intro st h1 h2
      simp only [tryAnyList]
      have hpaths := attemptConvertPath_attemptPaths sys files (path ++ [c]) st
      rcases hA : attemptConvertPath sys files (path ++ [c]) st with ⟨st1, r⟩
      rw [hA] at hpaths
      have h1' : ∀ q ∈ attemptPaths st1.log, Q q := by
        intro q hq
        rw [show st1.log = (st1, r).1.log from rfl, hpaths, List.mem_append] at hq
        rcases hq with hq | hq
        · exact h1 q hq
        · rw [List.mem_singleton] at hq
          subst hq
          exact h2 c (List.mem_cons_self _ _)
      cases r
      · exact ih st1 h1' (fun x hx => h2 x (List.mem_cons_of_mem _ hx))
      · exact h1'

/-- Every chain the BFS loop hands to the executor has at most 6 nodes —
a dequeued path survives the `length > 5` discard, and every attempted
chain appends exactly one node to it. -/
theorem buildLoop_attempt_len (sys : Sys) (files : List FileData) (target : Node)
    (aO aI : List Node) (dl : Option Nat) :
    ∀ fuel queue nested best tick st,
      (∀ q ∈ attemptPaths st.log, q.length ≤ 6) →
      ∀ q ∈ attemptPaths
        (buildLoop sys files target aO aI dl fuel queue nested best tick st).1.log,
        q.length ≤ 6 := by
  intro fuel
  induction fuel with
  | zero =>
      intro queue nested best tick st h1
      simpa [buildLoop] using h1
  | succ fuel ih =>
      intro queue nested best tick st h1
      cases queue with
      | nil => simpa [buildLoop] using h1
      | cons path rest =>
        simp only [buildLoop]
        by_cases htm : timeoutHit sys dl tick = true
        · rw [if_pos htm]
          cases st.convertPathCache.getLast? <;> exact h1
        · rw [if_neg htm]
          by_cases hlen : path.length > 5
          · rw [if_pos hlen]
            exact ih rest nested best (tick + 1) st h1
          · rw [if_neg hlen]
            have hlen6 : ∀ c : Node, (path ++ [c]).length ≤ 6 := by
              intro c
              rw [List.length_append, List.length_cons, List.length_nil]
              omega
            rcases hprev : path.getLast? with _ | prev <;> simp only
            · exact ih rest nested best (tick + 1) _ h1
            · split
              · rename_i st2 r best2 heq
                split at heq
                · have := tryCandidatesSimple_attemptsQ sys files path
                    (fun q => q.length ≤ 6) (aO.filter (fun o =>
                      ((sys.handlers.filter (fun h => handlerReadsMime
                        st.supportedFormatCache h prev.format.mime)).map
                        (fun h => h.hid)).contains o.handler &&
                      o.format.mime == target.format.mime && o.format.isTo)) best
                    { st with convertPathCache := realign path st.convertPathCache }
                    h1 (fun c _ => hlen6 c)
                  rw [heq] at this
                  exact this
                · split at heq
                  · have hpaths := attemptConvertPath_attemptPaths sys files
                      (path ++ [target])
                      { st with convertPathCache := realign path st.convertPathCache }
                    simp only [Prod.mk.injEq] at heq
                    obtain ⟨he1, _, _⟩ := heq
                    rw [he1] at hpaths
                    intro q hq
                    rw [hpaths, List.mem_append] at hq
                    rcases hq with hq | hq
                    · exact h1 q hq
                    · rw [List.mem_singleton] at hq
                      subst hq
                      exact hlen6 target
                  · exact absurd heq (by simp)
              · rename_i st2 best2 heq
                have h2 : ∀ q ∈ attemptPaths st2.log, q.length ≤ 6 := by
                  split at heq
                  · have := tryCandidatesSimple_attemptsQ sys files path
                      (fun q => q.length ≤ 6) (aO.filter (fun o =>
                      ((sys.handlers.filter (fun h => handlerReadsMime
                        st.supportedFormatCache h prev.format.mime)).map
                        (fun h => h.hid)).contains o.handler &&
                      o.format.mime == target.format.mime && o.format.isTo)) best
                      { st with convertPathCache := realign path st.convertPathCache }
                      h1 (fun c _ => hlen6 c)
                    rw [heq] at this
                    exact this
                  · split at heq
                    · have hpaths := attemptConvertPath_attemptPaths sys files
                        (path ++ [target])
                        { st with convertPathCache := realign path st.convertPathCache }
                      simp only [Prod.mk.injEq] at heq
                      obtain ⟨he1, _, _⟩ := heq
                      rw [he1] at hpaths
                      intro q hq
                      rw [hpaths, List.mem_append] at hq
                      rcases hq with hq | hq
                      · exact h1 q hq
                      · rw [List.mem_singleton] at hq
                        subst hq
                        exact hlen6 target
                    · simp only [Prod.mk.injEq] at heq
                      obtain ⟨he1, _, _⟩ := heq
                      rw [← he1]
                      exact h1
                split
                · rename_i st3 r nested2 heq2
                  split at heq2
                  · exact absurd heq2 (by simp)
                  · have := tryAnyList_attemptsQ sys files path (fun q => q.length ≤ 6)
                      (aI.filter (fun c => c.format.mime == target.format.mime)) st2 h2 (fun c _ => hlen6 c)
                    simp only [Prod.mk.injEq] at heq2
                    obtain ⟨he1, _, _⟩ := heq2
                    rw [he1] at this
                    exact this
                · rename_i st3 nested2 heq2
                  have h3 : ∀ q ∈ attemptPaths st3.log, q.length ≤ 6 := by
                    split at heq2
                    · simp only [Prod.mk.injEq] at heq2
                      obtain ⟨he1, _, _⟩ := heq2
                      rw [← he1]
                      exact h2
                    · have := tryAnyList_attemptsQ sys files path (fun q => q.length ≤ 6)
                        (aI.filter (fun c => c.format.mime == target.format.mime)) st2 h2 (fun c _ => hlen6 c)
                      simp only [Prod.mk.injEq] at heq2
                      obtain ⟨he1, _, _⟩ := heq2
                      rw [he1] at this
                      exact this
                  exact ih _ nested2 best2 (tick + 1) _ h3

/-- C7, at the search entry point: starting from an empty log, every chain
`buildConvertPath` passes to `attemptConvertPath` has at most
`MAX_CHAIN_LEN = 6` nodes (at most 5 hops). -/
theorem buildConvertPath_chain_len (sys : Sys) (files : List FileData) (target : Node)
    (aO aI : List Node) (dl : Option Nat) (queue0 : List (List Node)) (fuel : Nat)
    (st : St) (hlog : st.log = []) :
    ∀ q ∈ attemptPaths
      (buildConvertPath sys files target aO aI dl queue0 fuel st).1.log,
      q.length ≤ 6 := by
  refine buildLoop_attempt_len sys files target aO aI dl fuel queue0 false none 0
    { st with convertPathCache := [] } ?_
  rw [show ({ st with convertPathCache := [] } : St).log = st.log from rfl, hlog]
  intro q hq
  exact absurd hq (List.not_mem_nil q)

/-- Witness for `buildConvertPath_chain_len` at the `sysA` search. -/
theorem buildConvertPath_chain_len_witness :
    ([nodeA, nodeA] : List Node).length ≤ 6 :=
  buildConvertPath_chain_len sysA [⟨"f", [9]⟩] nodeA [nodeA] [] none [[nodeA]] 5 stA rfl
    [nodeA, nodeA] (by decide)

/-- C6: executing the chain a → x → y, both hops through the
ImageMagick-style handler of src/unnamed/part_000 (whose export has no
`ready` flag, so `handler.ready` is never true), invokes the handler's
`init` at both hops — twice in one executor call and one process — and
the second `init` appends the parsed format list to `supportedFormats`
again, doubling it from 3 to 6 entries: `init` is not at-most-once and
the format list is not immutable after init. -/
theorem C6_init_twice :
    runM.2.isSome = true ∧
    (hstGet runM.1 0).initCount = 2 ∧
    runM.1.log.countP (fun e => match e with | .initEv 0 true => true | _ => false) = 2 ∧
    ((hstGet runM.1 0).supportedFormats.getD []).length = 6 :=
  ⟨by decide, by decide, by decide, by decide⟩

/-- C9, counterexample: `buildOptionList` emits an option for the format
`pn0`, which has a MIME but neither `from` nor `to` — the pool is not
filtered by the flags (the `to` check below the push only gates UI button
creation); the format `pn1` without a MIME is correctly skipped. -/
theorem C9_counterexample :
    poolN.2 = [⟨0, pn0, 0⟩, ⟨1, pn2, 0⟩] ∧
    pn0.mime.isSome = true ∧ pn0.isFrom = false ∧ pn0.isTo = false :=
  ⟨by decide, by decide, by decide, by decide⟩

theorem poolNodes_mime (hid : Nat) :
    ∀ fmts n, ∀ nd ∈ (poolNodes hid fmts n).1, nd.format.mime.isSome = true := by
  intro fmts
  induction fmts with
  | nil => intro n nd h; simp [poolNodes] at h
  | cons f rest ih =>
      intro n nd h
      simp only [poolNodes] at h
      split at h
      · rename_i hmime
        rcases hE : poolNodes hid rest (n + 1) with ⟨ns, n1⟩
        rw [hE] at h
        simp only [List.mem_cons] at h
        rcases h with h | h
        · subst h
          simpa using hmime
        · exact ih (n + 1) nd (by rw [hE]; exact h)
      · exact ih n nd h

/-- C9, amended: the registry emits one option per `(handler, format)`
pair whose `format.mime` is set; a format with no MIME never enters the
pool, but there is no `from`/`to` filtering of the pool. -/
theorem buildOptionList_mime (sys : Sys) :
    ∀ hs n st, ∀ nd ∈ (buildOptionList sys hs n st).2, nd.format.mime.isSome = true := by
  intro hs
  induction hs with
  | nil => intro n st nd h; simp [buildOptionList] at h
  | cons hh rest ih =>
      intro n st nd h
      simp only [buildOptionList] at h
      split at h
      · exact ih n _ nd h
      · split at h
        · exact ih n _ nd h
        · rename_i fmts hcg
          rcases hE : poolNodes hh.hid fmts n with ⟨ns, n1⟩
          rw [hE] at h
          rcases hB : buildOptionList sys rest n1 _ with ⟨st2, ns2⟩
          rw [hB] at h
          simp only [List.mem_append] at h
          rcases h with h | h
          · exact poolNodes_mime hh.hid fmts n nd (by rw [hE]; exact h)
          · exact ih n1 _ nd (by rw [hB]; exact h)

/-- Witness for `buildOptionList_mime` at the `sysN` pool. -/
theorem buildOptionList_mime_witness : (⟨0, pn0, 0⟩ : Node).format.mime.isSome = true :=
  buildOptionList_mime sysN [hN] 0 stN ⟨0, pn0, 0⟩ (by decide)

/-- C10: after a cold search success the found chain is re-executed from a
cleared prefix cache.  With `hS 2` (convert succeeds on its first two
invocations, returning bytes that identify the invocation) the click
converts: the single hop's convert runs twice and the downloaded bytes
`[2]` come from the second, re-execution run.  With `hS 1` (convert
succeeds only once) the search finds the chain — its convert event is
logged as succeeding — but the re-execution fails and the click reports
no route. -/
theorem C10_double_execution :
    (clickS 2).map (fun r => (r.downloads, r.outcome)) =
      some ([("o", [2], some "b")], .converted) ∧
    (clickS 2).map (fun r => convEvsCount r.st.log) = some 2 ∧
    (clickS 1).map (fun r => (r.downloads, r.outcome)) = some ([], .noRoute) ∧
    (clickS 1).map (fun r => r.st.log) =
      some [.attemptStart [⟨0, gs0, 0⟩, ⟨1, gs1, 0⟩], .convEv 0 (some 0) 1 true,
            .attemptStart [⟨0, gs0, 0⟩, ⟨1, gs1, 0⟩], .convEv 0 (some 0) 1 false] :=
  ⟨by decide, by decide, by decide, by decide⟩

end Convert
